import Mathlib

/-!
# Verification of the normalizr normalization/denormalization engine

This development shallowly embeds the runtime core of the normalizr
library (src/normalize.ts, src/denormalize.ts, src/schemas/Entity.ts,
src/schemas/Object.ts, src/schemas/Array.ts, src/schemas/Values.ts,
src/schemas/Union.ts, src/schemas/Polymorphic.ts, src/utils) and proves
properties of the embedded engine.

JavaScript values are modelled with an explicit heap so that reference
identity (JS `===` on objects) and in-place mutation are observable:
a `JSVal` is either a primitive or a reference (an address into a heap
of objects).  JS objects are insertion-ordered association lists with
unique keys, matching JS own-property semantics.  Recursion in the
engine is expressed with an explicit fuel parameter; running out of
fuel is a distinguished outcome that corresponds to divergence /
stack exhaustion, which the source treats as out of scope.

Modelling notes (deliberate restrictions, stated once here):
* Strategies are the defaults from the source (`processStrategy`
  spreads the input, `mergeStrategy` spreads both records,
  `idAttribute` is a field name).  `fallbackStrategy` is configurable
  since claims exercise it.
* Dynamic schema functions in nested-field slots are not modelled;
  discriminators (schemaAttribute) are modelled both as field names and
  as arbitrary functions, since claims quantify over them.
* Prototype-chain lookups (`in`) are modelled as own-property lookups.
* Immutable.js containers are modelled as a distinct heap-object kind
  carrying a field map; spreading one yields no own properties, which
  matches real Immutable.js maps.
-/

namespace Normalizr

/-- A JavaScript primitive or object reference.  `ref a` is an address
into the heap; JS `===` on two object values is exactly equality of
`JSVal` (address equality). -/
inductive JSVal : Type
  | undef : JSVal
  | null : JSVal
  | bool : Bool → JSVal
  | num : Int → JSVal
  | str : String → JSVal
  | ref : Nat → JSVal
deriving Repr, DecidableEq

/-- A heap object: a plain object (insertion-ordered own fields), an
array, or an Immutable.js-style map (detected by `isImmutable` in the
source). -/
inductive JSObj : Type
  | obj : List (String × JSVal) → JSObj
  | arr : List JSVal → JSObj
  | imm : List (String × JSVal) → JSObj
deriving Repr, DecidableEq

/-- The heap: addresses are list indices; allocation appends. -/
abbrev Heap := List JSObj

/-- Association-list read with a default, modelling JS property read
(missing own property gives `undefined` at the use sites below). -/
def aget (fs : List (String × JSVal)) (k : String) : JSVal :=
  match fs with
  | [] => .undef
  | (k', v) :: rest => if k' = k then v else aget rest k

/-- Own-property test on a field list (`Object.hasOwn` semantics). -/
def ahas (fs : List (String × JSVal)) (k : String) : Bool :=
  match fs with
  | [] => false
  | (k', _) :: rest => k' = k || ahas rest k

/-- JS property write: updates an existing key in place (preserving
insertion order) or appends a new one. -/
def aset (fs : List (String × JSVal)) (k : String) (v : JSVal) :
    List (String × JSVal) :=
  match fs with
  | [] => [(k, v)]
  | (k', v') :: rest =>
      if k' = k then (k', v) :: rest else (k', v') :: aset rest k v

/-- JS `delete obj[k]`. -/
def adel (fs : List (String × JSVal)) (k : String) : List (String × JSVal) :=
  match fs with
  | [] => []
  | (k', v') :: rest => if k' = k then rest else (k', v') :: adel rest k

/-- Object spread `\x7b...a, ...b\x7d`: fields of `a` then, in order, each
field of `b` written over it. -/
def aspread (a b : List (String × JSVal)) : List (String × JSVal) :=
  b.foldl (fun acc kv => aset acc kv.1 kv.2) a

/-- Heap lookup. -/
def heapGet (h : Heap) (a : Nat) : Option JSObj := h[a]?

/-- Heap allocation: returns the new heap and the fresh address. -/
def heapAlloc (h : Heap) (o : JSObj) : Heap × Nat := (h ++ [o], h.length)

/-- Heap write at an existing address. -/
def heapSet (h : Heap) (a : Nat) (o : JSObj) : Heap := h.set a o

/-- Is the value an object reference?  (`typeof v === 'object' && v !== null`
for the values this model can produce.) -/
def JSVal.isRef : JSVal → Bool
  | .ref _ => true
  | _ => false

/-- JS `typeof`, as a string. -/
def typeofStr : JSVal → String
  | .undef => "undefined"
  | .null => "object"
  | .bool _ => "boolean"
  | .num _ => "number"
  | .str _ => "string"
  | .ref _ => "object"

/-- JS truthiness (no NaN in this model; `Int` stands for JS numbers). -/
def truthy : JSVal → Bool
  | .undef => false
  | .null => false
  | .bool b => b
  | .num n => n != 0
  | .str s => s ≠ ""
  | .ref _ => true

/-- JS string coercion `String(v)` / template-literal interpolation, as
used for property keys and cache keys.  Object references stringify to
the generic object tag. -/
def jsToString : JSVal → String
  | .undef => "undefined"
  | .null => "null"
  | .bool b => if b then "true" else "false"
  | .num n => toString n
  | .str s => s
  | .ref _ => "[object Object]"

/-- Is `v` a reference to an array in heap `h` (`Array.isArray`)? -/
def isArrayAt (h : Heap) (v : JSVal) : Bool :=
  match v with
  | .ref a =>
      match heapGet h a with
      | some (.arr _) => true
      | _ => false
  | _ => false

/-- Is `v` a reference to an Immutable.js-style container (`isImmutable`
in src/utils/immutable.ts)? -/
def isImmAt (h : Heap) (v : JSVal) : Bool :=
  match v with
  | .ref a =>
      match heapGet h a with
      | some (.imm _) => true
      | _ => false
  | _ => false

/-- The own fields produced by spreading a value into an object literal
(`\x7b...v\x7d`): a plain object contributes its fields, an array its
index-keyed elements, an Immutable container and primitives contribute
nothing.  (String primitives would contribute index fields; no engine
path spreads a string.) -/
def spreadFieldsOf (h : Heap) (v : JSVal) : List (String × JSVal) :=
  match v with
  | .ref a =>
      match heapGet h a with
      | some (.obj fs) => fs
      | some (.arr es) =>
          (es.enum.map fun p => (toString p.1, p.2))
      | some (.imm _) => []
      | none => []
  | _ => []

/-- Plain JS property read `v[k]` as used by the engine: own field of a
plain object; `undefined` for arrays (no named own props are read by
the engine), Immutable containers (their data are not own props),
primitives, and nullish values (nullish access is reached only through
optional chaining in the source). -/
def getPropJS (h : Heap) (v : JSVal) (k : String) : JSVal :=
  match v with
  | .ref a =>
      match heapGet h a with
      | some (.obj fs) => aget fs k
      | _ => .undef
  | _ => JSVal.undef

/-- Immutable.js `get(k)`, reading the container's field map. -/
def immGet (h : Heap) (v : JSVal) (k : String) : JSVal :=
  match v with
  | .ref a =>
      match heapGet h a with
      | some (.imm fs) => aget fs k
      | _ => .undef
  | _ => JSVal.undef

/-- Immutable.js `has(k)`. -/
def immHas (h : Heap) (v : JSVal) (k : String) : Bool :=
  match v with
  | .ref a =>
      match heapGet h a with
      | some (.imm fs) => ahas fs k
      | _ => false
  | _ => false

/-! ## Schemas

The schema variants of the source, as a closed inductive type.  Entity
schemas are JS objects that may form cycles (`define`), so entity
schemas live in an environment (`SchemaEnv`) and are referenced by
index; this is the standard way to embed a cyclic object graph. -/

/-- A `schemaAttribute` (discriminator): a field name, or an arbitrary
function of (heap, input, parent, key) as in the source's function
form.  Functions are modelled as pure heap readers. -/
inductive Discriminator : Type
  | attr : String → Discriminator
  | fn : (Heap → JSVal → JSVal → JSVal → JSVal) → Discriminator

mutual
/-- A schema: entity reference, bare shorthand forms, the Object class,
and the polymorphic containers Array / Values / Union. -/
inductive SchemaExpr : Type
  | entity : Nat → SchemaExpr
  | objShorthand : List (String × SchemaExpr) → SchemaExpr
  | arrShorthand : SchemaExpr → SchemaExpr
  | objectS : List (String × SchemaExpr) → SchemaExpr
  | arrayS : PolyDef → SchemaExpr
  | valuesS : PolyDef → SchemaExpr
  | unionS : List (String × SchemaExpr) → Discriminator → SchemaExpr

/-- The definition carried by a polymorphic container: one schema for
every element, or a mapping plus a discriminator. -/
inductive PolyDef : Type
  | single : SchemaExpr → PolyDef
  | poly : List (String × SchemaExpr) → Discriminator → PolyDef
end

/-- Result of a `fallbackStrategy`: an immediate value (the default
strategy yields `undefined`) or a freshly synthesized record, which the
engine allocates when used. -/
inductive FallbackRes : Type
  | val : JSVal → FallbackRes
  | record : List (String × JSVal) → FallbackRes

/-- An `EntitySchema` with the default `processStrategy` (spread),
default `mergeStrategy` (spread, incoming wins) and a field-name
`idAttribute`, plus a configurable `fallbackStrategy`. -/
structure EntityDef : Type where
  key : String
  idAttribute : String := "id"
  definition : List (String × SchemaExpr) := []
  fallback : JSVal → FallbackRes := fun _ => .val JSVal.undef

/-- The entity-schema environment; `SchemaExpr.entity i` points here. -/
abbrev SchemaEnv := List EntityDef

/-- Errors thrown by the engine, with the data interpolated into the
source's message templates; `fuel` marks exhausted recursion depth
(divergence), which has no counterpart `throw` in the source. -/
inductive JSErr : Type
  | unexpectedInput : String → JSErr
  | entityValidation : String → String → JSErr
  | circularImmutable : String → String → JSErr
  | typeError : String → JSErr
  | fuel : JSErr
deriving Repr, DecidableEq

/-- The exact message strings built by the source's `throw new Error`
sites. -/
def JSErr.message : JSErr → String
  | .unexpectedInput kind =>
      "Unexpected input given to normalize. Expected type to be \"object\", found \""
        ++ kind ++ "\"."
  | .entityValidation key kind =>
      "Expected an object for entity \"" ++ key ++ "\", but received "
        ++ kind ++ "."
  | .circularImmutable key id =>
      "Circular reference detected for Immutable.js entity \"" ++ key
        ++ "\" with ID \"" ++ id
        ++ "\". Circular references are not supported with Immutable.js."
  | .typeError what => "TypeError: " ++ what
  | .fuel => "(recursion fuel exhausted)"

/-! ## Generic association-list state helpers

The entity store, the visited-entities tracker and the denormalization
cache are plain JS objects used as string-keyed dictionaries; they are
modelled as insertion-ordered association lists. -/

/-- Dictionary lookup. -/
def lookupA {α : Type} (fs : List (String × α)) (k : String) : Option α :=
  match fs with
  | [] => none
  | (k', v) :: rest => if k' = k then some v else lookupA rest k

/-- Dictionary own-key test. -/
def hasA {α : Type} (fs : List (String × α)) (k : String) : Bool :=
  match fs with
  | [] => false
  | (k', _) :: rest => k' = k || hasA rest k

/-- Dictionary write (update in place or append). -/
def setA {α : Type} (fs : List (String × α)) (k : String) (v : α) :
    List (String × α) :=
  match fs with
  | [] => [(k, v)]
  | (k', v') :: rest =>
      if k' = k then (k', v) :: rest else (k', v') :: setA rest k v

/-! ## Normalization (src/normalize.ts, Entity/Object/Array/Values/
Union/Polymorphic normalize paths) -/

/-- The entity store built by a normalize call:
type key → id string → stored record (a reference). -/
abbrev EntitiesStore := List (String × List (String × JSVal))

/-- The visited-entities tracker: type → id string → the exact input
references already processed for that id (compared by JS `===`, which
is `JSVal` equality). -/
abbrev Visited := List (String × List (String × List JSVal))

/-- State threaded through a normalize call. -/
structure NState : Type where
  heap : Heap
  entities : EntitiesStore
  visited : Visited
deriving Repr

/-- The type of the recursive `visit` callback that the source passes
to every schema's `normalize`. -/
abbrev VisitFn :=
  JSVal → JSVal → Option String → SchemaExpr → NState →
    Except JSErr (JSVal × NState)

/-- `getId` with a field-name `idAttribute` (`getDefaultGetId`): reads
the attribute from the raw input, through `get` for Immutable
containers. -/
def entityGetId (h : Heap) (ed : EntityDef) (input : JSVal) : JSVal :=
  if isImmAt h input then immGet h input ed.idAttribute
  else getPropJS h input ed.idAttribute

/-- `EntitySchema.validate`: `some kind` describes the rejection
(reported in the error) and `none` means valid.  Rejects null,
non-objects and arrays. -/
def validateEntity (h : Heap) (v : JSVal) : Option String :=
  if v = .null then some "null"
  else if ¬ v.isRef then some (typeofStr v)
  else if isArrayAt h v then some "an array"
  else none

/-- The default `mergeStrategy`: a new record spreading existing then
incoming. -/
def mergeRecords (h : Heap) (existing incoming : JSVal) : JSObj :=
  .obj (aspread (spreadFieldsOf h existing) (spreadFieldsOf h incoming))

/-- `addEntities`' produced `addEntity`: bucket creation, then insert,
or merge on id collision (allocating the merged record). -/
def addEntity (ed : EntityDef) (processed : JSVal) (value : JSVal)
    (st : NState) : NState :=
  let schemaKey := ed.key
  let id := jsToString (entityGetId st.heap ed value)
  let bucket := (lookupA st.entities schemaKey).getD []
  if hasA bucket id then
    let existing := aget bucket id
    let (h', a) := heapAlloc st.heap (mergeRecords st.heap existing processed)
    { st with heap := h',
              entities := setA st.entities schemaKey (aset bucket id (.ref a)) }
  else
    { st with
        entities := setA st.entities schemaKey (aset bucket id processed) }

/-- `getValues` from Array.ts: an array's elements, or an object's own
values.  (Only reached with object-reference input.) -/
def getValuesJS (h : Heap) (input : JSVal) : List JSVal :=
  match input with
  | .ref a =>
      match heapGet h a with
      | some (.arr es) => es
      | some (.obj fs) => fs.map (·.2)
      | _ => []
  | _ => []

/-- Applying a discriminator: the string form reads the named property
of the input; the function form applies the function. -/
def applyDisc (h : Heap) (d : Discriminator) (input parent keyV : JSVal) :
    JSVal :=
  match d with
  | .attr name => getPropJS h input name
  | .fn f => f h input parent keyV

/-- Sequentially visit a list of values with one schema, threading the
state (the body of `values.map(value => visit(...))`). -/
def visitList (visit : VisitFn) (parent : JSVal) (key : Option String)
    (schema : SchemaExpr) : List JSVal → NState →
    Except JSErr (List JSVal × NState)
  | [], st => .ok ([], st)
  | v :: rest, st => do
    let (r, st') ← visit v parent key schema st
    let (rs, st'') ← visitList visit parent key schema rest st'
    .ok (r :: rs, st'')

/-- `ArrayUtils.normalize` (bare `[schema]` shorthand): visits each
value with the caller's parent and key and returns a fresh array. -/
def arrayShorthandNormalize (elem : SchemaExpr) (input parent : JSVal)
    (key : Option String) (visit : VisitFn) (st : NState) :
    Except JSErr (JSVal × NState) := do
  let values := getValuesJS st.heap input
  let (rs, st') ← visitList visit parent key elem values st
  let (h', a) := heapAlloc st'.heap (.arr rs)
  .ok (.ref a, { st' with heap := h' })

/-- The field loop of `ObjectUtils.normalize`: visit each declared
field (reading it from the input at visit time), dropping fields whose
normalized value is null/undefined. -/
def objectNormalizeFields (visit : VisitFn) (input : JSVal) :
    List (String × SchemaExpr) → List (String × JSVal) → NState →
    Except JSErr (List (String × JSVal) × NState)
  | [], acc, st => .ok (acc, st)
  | (k, s) :: rest, acc, st => do
    let (r, st') ← visit (getPropJS st.heap input k) input (some k) s st
    let acc' := if r = .undef ∨ r = .null then adel acc k else aset acc k r
    objectNormalizeFields visit input rest acc' st'

/-- `ObjectUtils.normalize` (bare map shorthand and `ObjectSchema`):
spread the input into a fresh object, then visit each declared field. -/
def objectShorthandNormalize (fields : List (String × SchemaExpr))
    (input : JSVal) (visit : VisitFn) (st : NState) :
    Except JSErr (JSVal × NState) := do
  let base := spreadFieldsOf st.heap input
  let (fs, st') ← objectNormalizeFields visit input fields base st
  let (h', a) := heapAlloc st'.heap (.obj fs)
  .ok (.ref a, { st' with heap := h' })

/-- The nested-field loop of `EntitySchema.normalize`: for each
declared field that is an own property of the processed entity and
object-typed, visit it (parent is the processed entity itself) and
write the result back in place. -/
def entityVisitFields (visit : VisitFn) (paddr : Nat) :
    List (String × SchemaExpr) → NState → Except JSErr NState
  | [], st => .ok st
  | (k, s) :: rest, st =>
      match heapGet st.heap paddr with
      | some (.obj pf) =>
          if ahas pf k ∧ ((aget pf k).isRef ∨ aget pf k = .null) then do
            let (r, st') ← visit (aget pf k) (.ref paddr) (some k) s st
            let st'' :=
              match heapGet st'.heap paddr with
              | some (.obj pf') =>
                  { st' with heap := heapSet st'.heap paddr (.obj (aset pf' k r)) }
              | _ => st'
            entityVisitFields visit paddr rest st''
          else entityVisitFields visit paddr rest st
      | _ => entityVisitFields visit paddr rest st

/-- `EntitySchema.normalize`: validate, extract the id from the raw
input, short-circuit if this exact reference was already visited for
this (type, id), otherwise record it, process the entity (spread),
visit the declared nested fields in place, add the record to the
store, and return the id. -/
def entityNormalize (ed : EntityDef) (input _parent : JSVal)
    (_key : Option String) (visit : VisitFn) (st : NState) :
    Except JSErr (JSVal × NState) := do
  match validateEntity st.heap input with
  | some kind => .error (.entityValidation ed.key kind)
  | none => do
    let id := entityGetId st.heap ed input
    let entityType := ed.key
    let idKey := jsToString id
    let vbucket := (lookupA st.visited entityType).getD []
    let vlist := (lookupA vbucket idKey).getD []
    if vlist.contains input then
      -- bucket creation still happened in the source before the check
      let st :=
        { st with visited := setA st.visited entityType (setA vbucket idKey vlist) }
      .ok (id, st)
    else do
      let visited' := setA st.visited entityType (setA vbucket idKey (vlist ++ [input]))
      let st := { st with visited := visited' }
      let processedFields := spreadFieldsOf st.heap input
      let (h', paddr) := heapAlloc st.heap (.obj processedFields)
      let st := { st with heap := h' }
      let st ← entityVisitFields visit paddr ed.definition st
      let st := addEntity ed (.ref paddr) input st
      .ok (id, st)

/-- `PolymorphicSchema.normalizeValue`: resolve the schema via the
discriminator (a literal `false` attribute, or an unmapped key after
JS string coercion, resolves to nothing and the value passes through);
visit; for multi-schema containers wrap non-nullish results as an
`id`/`schema` tag (re-reading the attribute, as the source does). -/
def polyNormalizeValue (d : PolyDef) (value parent : JSVal) (key : String)
    (visit : VisitFn) (st : NState) : Except JSErr (JSVal × NState) :=
  let inferred : Option SchemaExpr :=
    match d with
    | .single s => some s
    | .poly mapping disc =>
        let attr := applyDisc st.heap disc value parent (.str key)
        if attr = .bool false then none
        else lookupA mapping (jsToString attr)
  match inferred with
  | none => .ok (value, st)
  | some s => do
    let (nv, st') ← visit value parent (some key) s st
    match d with
    | .single _ => .ok (nv, st')
    | .poly _ disc =>
        if nv = .undef ∨ nv = .null then .ok (nv, st')
        else
          let attr2 := applyDisc st'.heap disc value parent (.str key)
          let (h', a) :=
            heapAlloc st'.heap (.obj [("id", nv), ("schema", attr2)])
          .ok (.ref a, { st' with heap := h' })

/-- The element loop of `ArraySchema.normalize`. -/
def polyNormalizeList (d : PolyDef) (parent : JSVal) (key : String)
    (visit : VisitFn) : List JSVal → NState →
    Except JSErr (List JSVal × NState)
  | [], st => .ok ([], st)
  | v :: rest, st => do
    let (r, st') ← polyNormalizeValue d v parent key visit st
    let (rs, st'') ← polyNormalizeList d parent key visit rest st'
    .ok (r :: rs, st'')

/-- `ArraySchema.normalize`: normalize each value of the input (array
elements or object values), then drop null/undefined results. -/
def arraySchemaNormalize (d : PolyDef) (input parent : JSVal)
    (key : Option String) (visit : VisitFn) (st : NState) :
    Except JSErr (JSVal × NState) := do
  let values := getValuesJS st.heap input
  let (rs, st') ← polyNormalizeList d parent (key.getD "") visit values st
  let kept := rs.filter (fun v => ¬ (v = .undef ∨ v = .null))
  let (h', a) := heapAlloc st'.heap (.arr kept)
  .ok (.ref a, { st' with heap := h' })

/-- The key loop of `ValuesSchema.normalize`: skips nullish values,
normalizes the rest with the input itself as parent and the key as
discriminator key. -/
def valuesNormalizeKeys (d : PolyDef) (input : JSVal) (visit : VisitFn) :
    List String → List (String × JSVal) → NState →
    Except JSErr (List (String × JSVal) × NState)
  | [], acc, st => .ok (acc, st)
  | k :: rest, acc, st => do
    let v := getPropJS st.heap input k
    if v = .undef ∨ v = .null then
      valuesNormalizeKeys d input visit rest acc st
    else do
      let (r, st') ← polyNormalizeValue d v input k visit st
      valuesNormalizeKeys d input visit rest (aset acc k r) st'

/-- `ValuesSchema.normalize`. -/
def valuesSchemaNormalize (d : PolyDef) (input : JSVal) (visit : VisitFn)
    (st : NState) : Except JSErr (JSVal × NState) := do
  let keys := (spreadFieldsOf st.heap input).map (·.1)
  let (fs, st') ← valuesNormalizeKeys d input visit keys [] st
  let (h', a) := heapAlloc st'.heap (.obj fs)
  .ok (.ref a, { st' with heap := h' })

/-- The source's recursive `visit`: primitives and null pass through;
shorthand forms dispatch to the generic functions; schema classes
dispatch to their own `normalize`.  Fuel bounds the recursion depth. -/
def visit : Nat → SchemaEnv → VisitFn
  | 0, _, _, _, _, _, _ => .error .fuel
  | Nat.succ fuel, env, value, parent, key, schema, st =>
    if ¬ value.isRef then .ok (value, st)
    else
      let v : VisitFn := visit fuel env
      match schema with
      | .arrShorthand e => arrayShorthandNormalize e value parent key v st
      | .objShorthand fs => objectShorthandNormalize fs value v st
      | .objectS fs => objectShorthandNormalize fs value v st
      | .entity i =>
          match env[i]? with
          | some ed => entityNormalize ed value parent key v st
          | none => .error (.typeError "unknown entity schema")
      | .arrayS d => arraySchemaNormalize d value parent key v st
      | .valuesS d => valuesSchemaNormalize d value v st
      | .unionS m disc =>
          polyNormalizeValue (.poly m disc) value parent (key.getD "") v st

/-- `normalize(input, schema)`: rejects non-object input with the
source's error, then visits the input (the input is its own parent at
the root) against a fresh store and visited tracker. -/
def normalize (fuel : Nat) (env : SchemaEnv) (input : JSVal)
    (schema : SchemaExpr) (h : Heap) : Except JSErr (JSVal × NState) :=
  if ¬ (truthy input && (typeofStr input == "object")) then
    .error (.unexpectedInput (if input = .null then "null" else typeofStr input))
  else
    visit fuel env input input none schema ⟨h, [], []⟩

/-! ## Denormalization (src/denormalize.ts and the schemas' denormalize
paths).  The per-call state is the heap plus the denormalization cache
and the in-progress set of `"type:id"` tokens. -/

/-- State threaded through a denormalize call. -/
structure DState : Type where
  heap : Heap
  cache : List (String × List (String × JSVal))
  inProg : List String
deriving Repr

/-- The recursive `unvisit` callback type. -/
abbrev UnvisitFn :=
  JSVal → SchemaExpr → DState → Except JSErr (JSVal × DState)

/-- `getEntities`' produced getter: an object passes through as-is
(partially denormalized input); otherwise an own-property lookup in the
store, `undefined` when the bucket or the id is missing.  (Immutable
stores are not modelled; the store is the plain-object wire format.) -/
def getEntityJS (entities : EntitiesStore) (entityOrId : JSVal)
    (ed : EntityDef) : JSVal :=
  if typeofStr entityOrId == "object" then entityOrId
  else
    match lookupA entities ed.key with
    | none => .undef
    | some bucket =>
        if ahas bucket (jsToString entityOrId) then
          aget bucket (jsToString entityOrId)
        else JSVal.undef

/-- Immutable.js `set`: copy-on-write, allocating a new container. -/
def immSet (h : Heap) (v : JSVal) (k : String) (newV : JSVal) :
    Heap × JSVal :=
  match v with
  | .ref a =>
      match heapGet h a with
      | some (.imm fs) =>
          let (h', b) := heapAlloc h (.imm (aset fs k newV))
          (h', .ref b)
      | _ => (h, v)
  | _ => (h, v)

/-- The key loop of `denormalizeImmutable`: for each declared field the
container has, thread a new container through `set`. -/
def immDenormalizeFields (unvisit : UnvisitFn) :
    List (String × SchemaExpr) → JSVal → DState →
    Except JSErr (JSVal × DState)
  | [], obj, st => .ok (obj, st)
  | (k, s) :: rest, obj, st =>
      if immHas st.heap obj k then do
        let (r, st') ← unvisit (immGet st.heap obj k) s st
        let (h', obj') := immSet st'.heap obj k r
        immDenormalizeFields unvisit rest obj' { st' with heap := h' }
      else immDenormalizeFields unvisit rest obj st

/-- The nested-field loop of the plain-object path of
`EntitySchema.denormalize`: mutates the entity record in place. -/
def entityDenormFields (unvisit : UnvisitFn) (addr : Nat) :
    List (String × SchemaExpr) → DState → Except JSErr DState
  | [], st => .ok st
  | (k, s) :: rest, st =>
      match heapGet st.heap addr with
      | some (.obj pf) =>
          if ahas pf k then do
            let (r, st') ← unvisit (aget pf k) s st
            let st'' :=
              match heapGet st'.heap addr with
              | some (.obj pf') =>
                  { st' with heap := heapSet st'.heap addr (.obj (aset pf' k r)) }
              | _ => st'
            entityDenormFields unvisit addr rest st''
          else entityDenormFields unvisit addr rest st
      | _ => entityDenormFields unvisit addr rest st

/-- `EntitySchema.denormalize`: immutable containers are rebuilt via
`set`; plain records are mutated in place and returned. -/
def entityDenormalize (ed : EntityDef) (entityVal : JSVal)
    (unvisit : UnvisitFn) (st : DState) : Except JSErr (JSVal × DState) :=
  if isImmAt st.heap entityVal then
    immDenormalizeFields unvisit ed.definition entityVal st
  else
    match entityVal with
    | .ref a => do
        let st' ← entityDenormFields unvisit a ed.definition st
        .ok (entityVal, st')
    | _ => .ok (entityVal, st)

/-- The record-resolution step of `unvisitEntity`: the store lookup,
with fallback substitution when the entity is `undefined` (a
synthesized fallback record is allocated on the heap). -/
def resolveEntityRecord (ed : EntityDef) (id : JSVal)
    (entities : EntitiesStore) (st : DState) : JSVal × DState :=
  let entity0 := getEntityJS entities id ed
  if entity0 = .undef then
    match ed.fallback id with
    | .val v => (v, st)
    | .record fs =>
        let (h', a) := heapAlloc st.heap (.obj fs)
        (JSVal.ref a, { st with heap := h' })
  else (entity0, st)

/-- Write a value into the denormalization cache bucket of `key`. -/
def cachePut (cache : List (String × List (String × JSVal))) (key idKey : String)
    (v : JSVal) : List (String × List (String × JSVal)) :=
  setA cache key (aset ((lookupA cache key).getD []) idKey v)

/-- Read the denormalization cache (JS read: `undefined` when absent). -/
def cacheRead (cache : List (String × List (String × JSVal)))
    (key idKey : String) : JSVal :=
  aget ((lookupA cache key).getD []) idKey

/-- The build phase of `unvisitEntity` (reached when the record is
neither in progress nor cached): mark in progress, make a working copy
(immutable records are used directly), register the copy in the cache
*before* recursing, resolve the nested fields, cache the result and
clear the in-progress mark. -/
def unvisitEntityBuild (ed : EntityDef) (idKey cacheKey : String)
    (entity : JSVal) (unvisit : UnvisitFn) (st : DState) :
    Except JSErr (JSVal × DState) :=
  let st1 := { st with inProg := st.inProg ++ [cacheKey] }
  let (st2, entityCopy) :=
    if isImmAt st1.heap entity then (st1, entity)
    else
      let (h', a) := heapAlloc st1.heap (.obj (spreadFieldsOf st1.heap entity))
      ({ st1 with heap := h' }, JSVal.ref a)
  let st3 := { st2 with cache := cachePut st2.cache ed.key idKey entityCopy }
  match entityDenormalize ed entityCopy unvisit st3 with
  | .error e => .error e
  | .ok (result, st4) =>
      let st5 := { st4 with cache := cachePut st4.cache ed.key idKey result,
                            inProg := st4.inProg.erase cacheKey }
      .ok (cacheRead st5.cache ed.key idKey, st5)

/-- `unvisitEntity`: look up the record (with fallback substitution for
missing ids), pass non-objects through, detect in-progress cycles
(fatal for immutable records, cache hit for plain ones), return
completed cache entries, and otherwise run the build phase. -/
def unvisitEntity (ed : EntityDef) (id : JSVal) (unvisit : UnvisitFn)
    (entities : EntitiesStore) (st : DState) :
    Except JSErr (JSVal × DState) :=
  match resolveEntityRecord ed id entities st with
  | (entity, st0) =>
    if ¬ entity.isRef then .ok (entity, st0)
    else
      let st1 :=
        if hasA st0.cache ed.key then st0
        else { st0 with cache := setA st0.cache ed.key [] }
      let idKey := jsToString id
      let cacheKey := ed.key ++ ":" ++ idKey
      if st1.inProg.contains cacheKey then
        if isImmAt st1.heap entity then
          .error (.circularImmutable ed.key idKey)
        else
          .ok (cacheRead st1.cache ed.key idKey, st1)
      else if ahas ((lookupA st1.cache ed.key).getD []) idKey then
        .ok (cacheRead st1.cache ed.key idKey, st1)
      else unvisitEntityBuild ed idKey cacheKey entity unvisit st1

/-- `ObjectUtils.denormalize`: immutable containers are rebuilt; for
everything else, spread the input into a fresh object and unvisit the
non-nullish declared fields.  (Nullish input reaches this function and
spreads to an empty object: the shorthand dispatch in `unvisit` comes
before the nullish check.) -/
def objectDenormFields (unvisit : UnvisitFn) :
    List (String × SchemaExpr) → List (String × JSVal) → DState →
    Except JSErr (List (String × JSVal) × DState)
  | [], acc, st => .ok (acc, st)
  | (k, s) :: rest, acc, st =>
      if ¬ (aget acc k = .undef ∨ aget acc k = .null) then do
        let (r, st') ← unvisit (aget acc k) s st
        objectDenormFields unvisit rest (aset acc k r) st'
      else objectDenormFields unvisit rest acc st

/-- `ObjectUtils.denormalize`. -/
def objectDenormalize (fields : List (String × SchemaExpr))
    (input : JSVal) (unvisit : UnvisitFn) (st : DState) :
    Except JSErr (JSVal × DState) :=
  if isImmAt st.heap input then
    immDenormalizeFields unvisit fields input st
  else do
    let (fs, st') ← objectDenormFields unvisit fields (spreadFieldsOf st.heap input) st
    let (h', a) := heapAlloc st'.heap (.obj fs)
    .ok (.ref a, { st' with heap := h' })

/-- Sequentially unvisit a list of values with one schema. -/
def unvisitList (unvisit : UnvisitFn) (schema : SchemaExpr) :
    List JSVal → DState → Except JSErr (List JSVal × DState)
  | [], st => .ok ([], st)
  | v :: rest, st => do
    let (r, st') ← unvisit v schema st
    let (rs, st'') ← unvisitList unvisit schema rest st'
    .ok (r :: rs, st'')

/-- `ArrayUtils.denormalize` (bare `[schema]` shorthand): anything with
a `map` (an array, in this model) is mapped element-wise into a fresh
array; everything else passes through unchanged. -/
def arrayShorthandDenormalize (elem : SchemaExpr) (input : JSVal)
    (unvisit : UnvisitFn) (st : DState) : Except JSErr (JSVal × DState) :=
  match input with
  | .ref a =>
      match heapGet st.heap a with
      | some (.arr es) => do
          let (rs, st') ← unvisitList unvisit elem es st
          let (h', b) := heapAlloc st'.heap (.arr rs)
          .ok (.ref b, { st' with heap := h' })
      | _ => .ok (input, st)
  | _ => .ok (input, st)

/-- `PolymorphicSchema.denormalizeValue`: extract the `schema` tag (via
`get` for immutable inputs); multi-schema containers pass untagged
values through; otherwise resolve the mapped schema and unvisit the
tag's id (or the value itself when the id is nullish).  A truthy tag
whose key is unmapped makes the source pass `undefined` as the schema
to `unvisit`, which crashes on `Object.keys(undefined)`; that crash is
modelled as a type error here. -/
def polyDenormalizeValue (d : PolyDef) (value : JSVal)
    (unvisit : UnvisitFn) (st : DState) : Except JSErr (JSVal × DState) :=
  let schemaKey :=
    if isImmAt st.heap value then immGet st.heap value "schema"
    else getPropJS st.heap value "schema"
  match d with
  | .single s => unvisit value s st
  | .poly mapping _ =>
      if ¬ truthy schemaKey then .ok (value, st)
      else
        let idv :=
          if isImmAt st.heap value then immGet st.heap value "id"
          else getPropJS st.heap value "id"
        match lookupA mapping (jsToString schemaKey) with
        | some s =>
            unvisit (if idv = .undef ∨ idv = .null then value else idv) s st
        | none => .error (.typeError "Object.keys called on undefined schema")

/-- The element loop of `ArraySchema.denormalize`. -/
def polyDenormalizeList (d : PolyDef) (unvisit : UnvisitFn) :
    List JSVal → DState → Except JSErr (List JSVal × DState)
  | [], st => .ok ([], st)
  | v :: rest, st => do
    let (r, st') ← polyDenormalizeValue d v unvisit st
    let (rs, st'') ← polyDenormalizeList d unvisit rest st'
    .ok (r :: rs, st'')

/-- `ArraySchema.denormalize`. -/
def arraySchemaDenormalize (d : PolyDef) (input : JSVal)
    (unvisit : UnvisitFn) (st : DState) : Except JSErr (JSVal × DState) :=
  match input with
  | .ref a =>
      match heapGet st.heap a with
      | some (.arr es) => do
          let (rs, st') ← polyDenormalizeList d unvisit es st
          let (h', b) := heapAlloc st'.heap (.arr rs)
          .ok (.ref b, { st' with heap := h' })
      | _ => .ok (input, st)
  | _ => .ok (input, st)

/-- The key loop of `ValuesSchema.denormalize` (no nullish filter on
this side). -/
def valuesDenormKeys (d : PolyDef) (input : JSVal) (unvisit : UnvisitFn) :
    List String → List (String × JSVal) → DState →
    Except JSErr (List (String × JSVal) × DState)
  | [], acc, st => .ok (acc, st)
  | k :: rest, acc, st => do
      let (r, st') ← polyDenormalizeValue d (getPropJS st.heap input k) unvisit st
      valuesDenormKeys d input unvisit rest (aset acc k r) st'

/-- `ValuesSchema.denormalize`. -/
def valuesSchemaDenormalize (d : PolyDef) (input : JSVal)
    (unvisit : UnvisitFn) (st : DState) : Except JSErr (JSVal × DState) := do
  let keys := (spreadFieldsOf st.heap input).map (·.1)
  let (fs, st') ← valuesDenormKeys d input unvisit keys [] st
  let (h', a) := heapAlloc st'.heap (.obj fs)
  .ok (.ref a, { st' with heap := h' })

/-- The eager `unvisit` of `createEagerUnvisit`: shorthand forms are
dispatched before the nullish check (so nullish values do reach
`ObjectUtils.denormalize`); nullish values pass through for schema
classes; entity schemas go through `unvisitEntity`. -/
def unvisit (fuel : Nat) (env : SchemaEnv) (entities : EntitiesStore) :
    UnvisitFn :=
  match fuel with
  | 0 => fun _ _ _ => .error .fuel
  | Nat.succ fuel => fun input schema st =>
    let u : UnvisitFn := unvisit fuel env entities
    match schema with
    | .arrShorthand e => arrayShorthandDenormalize e input u st
    | .objShorthand fs => objectDenormalize fs input u st
    | .objectS fs =>
        if input = .undef ∨ input = .null then .ok (input, st)
        else objectDenormalize fs input u st
    | .entity i =>
        if input = .undef ∨ input = .null then .ok (input, st)
        else
          match env[i]? with
          | some ed => unvisitEntity ed input u entities st
          | none => .error (.typeError "unknown entity schema")
    | .arrayS d =>
        if input = .undef ∨ input = .null then .ok (input, st)
        else arraySchemaDenormalize d input u st
    | .valuesS d =>
        if input = .undef ∨ input = .null then .ok (input, st)
        else valuesSchemaDenormalize d input u st
    | .unionS m disc =>
        if input = .undef ∨ input = .null then .ok (input, st)
        else polyDenormalizeValue (.poly m disc) input u st

/-- `denormalize(input, schema, entities)`: `undefined` input returns
unchanged; otherwise the eager unvisitor runs with a fresh cache and
in-progress set.  (`options.createUnvisit` replaces the whole
unvisitor and is an extension seam, not modelled.) -/
def denormalize (fuel : Nat) (env : SchemaEnv) (input : JSVal)
    (schema : SchemaExpr) (entities : EntitiesStore) (h : Heap) :
    Except JSErr (JSVal × DState) :=
  if input = .undef then .ok (.undef, ⟨h, [], []⟩)
  else unvisit fuel env entities input schema ⟨h, [], []⟩

/-! ## Deep equality via readback

JS deep-equality of (acyclic portions of) heap values is expressed by
reading a value back into a pure tree (`PVal`) to a bounded depth; two
values are deep-equal when their readbacks agree at a sufficient
depth. -/

/-- A pure (tree) snapshot of a JS value. -/
inductive PVal : Type
  | undef : PVal
  | null : PVal
  | bool : Bool → PVal
  | num : Int → PVal
  | str : String → PVal
  | pobj : List (String × PVal) → PVal
  | parr : List PVal → PVal
  | pimm : List (String × PVal) → PVal
deriving Repr

/-- Read back each element of a list. -/
def readbackL (rb : JSVal → Option PVal) : List JSVal → Option (List PVal)
  | [] => some []
  | v :: rest =>
      match rb v, readbackL rb rest with
      | some p, some ps => some (p :: ps)
      | _, _ => none

/-- Read back each field of a field list. -/
def readbackF (rb : JSVal → Option PVal) :
    List (String × JSVal) → Option (List (String × PVal))
  | [] => some []
  | (k, v) :: rest =>
      match rb v, readbackF rb rest with
      | some p, some ps => some ((k, p) :: ps)
      | _, _ => none

/-- Depth-bounded readback of a heap value into a pure tree; `none`
when the depth does not suffice (in particular on cycles) or on a
dangling reference. -/
def readback : Nat → Heap → JSVal → Option PVal
  | 0, _, _ => none
  | Nat.succ n, h, v =>
    match v with
    | .undef => some .undef
    | .null => some .null
    | .bool b => some (.bool b)
    | .num m => some (.num m)
    | .str s => some (.str s)
    | .ref a =>
        match heapGet h a with
        | some (.obj fs) => (readbackF (readback n h) fs).map PVal.pobj
        | some (.arr es) => (readbackL (readback n h) es).map PVal.parr
        | some (.imm fs) => (readbackF (readback n h) fs).map PVal.pimm
        | none => none

/-! ## Concrete claim vectors -/

/-- A `users` entity whose `friends` field is a list of users
(`userSchema.define(\x7b friends: [userSchema] \x7d)`). -/
def usersEnv : SchemaEnv :=
  [⟨"users", "id", [("friends", .arrShorthand (.entity 0))], fun _ => .val .undef⟩]

/-- A `users` entity with no nested fields. -/
def usersFlatEnv : SchemaEnv := [⟨"users", "id", [], fun _ => .val .undef⟩]

/-- `users` and `groups` entities with no nested fields. -/
def usersGroupsEnv : SchemaEnv :=
  [⟨"users", "id", [], fun _ => .val .undef⟩,
   ⟨"groups", "id", [], fun _ => .val .undef⟩]

/-- A Union of `usersGroupsEnv`'s schemas discriminated by `type`. -/
def userGroupUnion : SchemaExpr :=
  .unionS [("user", .entity 0), ("group", .entity 1)] (.attr "type")

/-- Input heap for cycle-safety: a user object whose `friends` array
contains the user object itself. -/
def cyclicUserHeap : Heap :=
  [.obj [("id", .num 1), ("friends", .ref 1)], .arr [.ref 0]]

/-- The normalized store produced from `cyclicUserHeap`: one record
whose `friends` holds the id. -/
def cyclicStore : EntitiesStore := [("users", [("1", .ref 0)])]

/-- Heap backing `cyclicStore`: the stored record with `friends = [1]`. -/
def cyclicStoreHeap : Heap :=
  [.obj [("id", .num 1), ("friends", .ref 1)], .arr [.num 1]]

/-- Input heap for the merge claim: the two records sharing id 1, and
the list containing them. -/
def mergeHeap : Heap :=
  [.obj [("id", .num 1), ("name", .str "foo")],
   .obj [("id", .num 1), ("name", .str "bar"), ("alias", .str "bar")],
   .arr [.ref 0, .ref 1]]

/-- Input heap for the Union claim: `\x7b id: 1, type: 'user' \x7d`. -/
def unionInputHeap : Heap := [.obj [("id", .num 1), ("type", .str "user")]]

/-- Errors a denormalization traversal can produce: circular-reference
errors, type errors, or fuel exhaustion (divergence). -/
def DenormErr (e : JSErr) : Prop :=
  (∃ k i, e = .circularImmutable k i) ∨ (∃ s, e = .typeError s) ∨ e = .fuel

/-- An unvisit callback whose errors all satisfy `P`. -/
def UErrsIn (P : JSErr → Prop) (u : UnvisitFn) : Prop :=
  ∀ v s st e, u v s st = .error e → P e

/-- Errors a `visit` traversal can produce: entity-validation errors,
type errors, or fuel exhaustion. -/
def NormErr (e : JSErr) : Prop :=
  (∃ k kind, e = .entityValidation k kind) ∨ (∃ s, e = .typeError s) ∨ e = .fuel

/-- A visit callback whose errors all satisfy `P`. -/
def VErrsIn (P : JSErr → Prop) (vfn : VisitFn) : Prop :=
  ∀ v p k s st e, vfn v p k s st = .error e → P e

/-- A `users` entity with two nested user fields `a` and `b`. -/
def sharedEnv : SchemaEnv :=
  [⟨"users", "id", [("a", .entity 0), ("b", .entity 0)], fun _ => .val .undef⟩]

/-- Store heap for the shared-reference claim: user 1 references user 2
twice. -/
def sharedHeap : Heap :=
  [.obj [("id", .num 1), ("a", .num 2), ("b", .num 2)], .obj [("id", .num 2)]]

/-- Store for `sharedHeap`. -/
def sharedStore : EntitiesStore := [("users", [("1", .ref 0), ("2", .ref 1)])]

/-- Heap whose stored user record is an Immutable-style container in a
cycle (`friends = [1]` points back at itself). -/
def immCyclicHeap : Heap :=
  [.imm [("id", .num 1), ("friends", .ref 1)], .arr [.num 1]]

/-- A tag object whose `schema` key is truthy but absent from the
Union's mapping. -/
def unmappedTagHeap : Heap := [.obj [("id", .num 1), ("schema", .str "nope")]]

/-- A discriminator function that always returns the falsy key `""`. -/
def falsyDisc : Discriminator := .fn (fun _ _ _ _ => .str "")

/-- An ArraySchema whose mapping contains the falsy key `""`. -/
def falsyKeySchema : SchemaExpr := .arrayS (.poly [("", .entity 0)] falsyDisc)

/-- Input heap for the falsy-discriminator counterexample. -/
def falsyKeyHeap : Heap := [.obj [("id", .num 1)], .arr [.ref 0]]

/-- `h'` preserves `h` below `base`: every address under `base` holds
the same object, and the heap has not shrunk below `base`.  This is
the frame property of a denormalize call with `base` the length of the
caller's heap: the call allocates and mutates only fresh cells. -/
def HeapFrame (base : Nat) (h h' : Heap) : Prop :=
  base ≤ h'.length ∧ ∀ a, a < base → h'[a]? = h[a]?

/-- An unvisit callback that satisfies the frame property relative to
`base`. -/
def UFrame (base : Nat) (u : UnvisitFn) : Prop :=
  ∀ v s st r st', u v s st = .ok (r, st') → base ≤ st.heap.length →
    HeapFrame base st.heap st'.heap

/-- Does a value only reference addresses below `base`? -/
def valBelow (base : Nat) : JSVal → Bool
  | .ref a => a < base
  | _ => true

/-- Does an object only reference addresses below `base`? -/
def objBelow (base : Nat) : JSObj → Bool
  | .obj fs => fs.all (fun kv => valBelow base kv.2)
  | .arr es => es.all (valBelow base)
  | .imm fs => fs.all (fun kv => valBelow base kv.2)

/-- A closed heap: every stored reference points into the heap. -/
def heapClosed (h : Heap) : Bool := h.all (objBelow h.length)

/-! ## Round-trip conformance (C1)

The round trip `denormalize (normalize x S) S` is exact only for inputs
whose schema-declared positions hold well-shaped data.  `Conf` is the
conformance relation on the input side: every schema-declared position
holds an object reference of the declared shape, entity ids are defined
non-nullish primitives, and field lists have unique keys (as JS own
properties are unique).  The relation threads the list of entity
occurrences already completed, as `((type, id), address)` pairs in
traversal order: a position may hold the very same object already
processed for its (type, id) - the engine's visited-tracker
short-circuit - so shared (DAG-like) references are covered, while a
cyclic reference would need its own pair in scope before the occurrence
completes and therefore has no derivation.  The added-pairs index
collects the subtree's new entity occurrences; the round-trip theorem
requires the tokens of all pairs to have no duplicates (no two distinct
objects share a (type, id), so no merging occurs).  The `Nat` index
bounds the derivation height and ties it to the engine's recursion
depth.  The relation covers the Entity, Object (class and shorthand)
and bare-array schema forms. -/

/-- An entity occurrence: its (type key, id string) pair and the heap
address of the input object that carries it. -/
abbrev EPair := (String × String) × Nat

/-- `h'` extends `h` preserving all of the original heap `h0` and every
existing address outside the excluded list `X`: the evolution of the
heap observed after a denormalization step returns.  Later steps
allocate fresh cells and patch only the record copies still being
built, whose addresses stand in `X`. -/
def DExtX (h0 : Heap) (X : List Nat) (h h' : Heap) : Prop :=
  h.length ≤ h'.length ∧ (∀ p, p < h0.length → h'[p]? = h[p]?) ∧
  (∀ p, p < h.length → p ∉ X → h'[p]? = h[p]?)

mutual
/-- Input-side conformance (see the section comment): the value
conforms at the given height with the listed occurrences already
completed, adding the occurrences of the last index. -/
inductive Conf (env : SchemaEnv) (h0 : Heap) :
    Nat → JSVal → SchemaExpr → List EPair → List EPair → Prop
  | entity {n : Nat} {i : Nat} {ed : EntityDef} {a : Nat}
      {fields : List (String × JSVal)} {dn prs : List EPair}
      (henv : env[i]? = some ed)
      (hobj : heapGet h0 a = some (.obj fields))
      (hfnd : (fields.map Prod.fst).Nodup)
      (hidr : (aget fields ed.idAttribute).isRef = false)
      (hidu : aget fields ed.idAttribute ≠ .undef)
      (hidn : aget fields ed.idAttribute ≠ .null)
      (hdnd : (ed.definition.map Prod.fst).Nodup)
      (hf : ConfFields env h0 n fields ed.definition dn prs) :
      Conf env h0 (n + 1) (.ref a) (.entity i) dn
        (((ed.key, jsToString (aget fields ed.idAttribute)), a) :: prs)
  | entityVisited {n : Nat} {i : Nat} {ed : EntityDef} {a : Nat}
      {fields : List (String × JSVal)} {dn : List EPair}
      (henv : env[i]? = some ed)
      (hobj : heapGet h0 a = some (.obj fields))
      (hidr : (aget fields ed.idAttribute).isRef = false)
      (hidu : aget fields ed.idAttribute ≠ .undef)
      (hidn : aget fields ed.idAttribute ≠ .null)
      (hmem : ((ed.key, jsToString (aget fields ed.idAttribute)), a) ∈ dn) :
      Conf env h0 (n + 1) (.ref a) (.entity i) dn []
  | objSh {n : Nat} {a : Nat} {fields : List (String × JSVal)}
      {decls : List (String × SchemaExpr)} {dn prs : List EPair}
      (hobj : heapGet h0 a = some (.obj fields))
      (hfnd : (fields.map Prod.fst).Nodup)
      (hdnd : (decls.map Prod.fst).Nodup)
      (hf : ConfFields env h0 n fields decls dn prs) :
      Conf env h0 (n + 1) (.ref a) (.objShorthand decls) dn prs
  | objS {n : Nat} {a : Nat} {fields : List (String × JSVal)}
      {decls : List (String × SchemaExpr)} {dn prs : List EPair}
      (hobj : heapGet h0 a = some (.obj fields))
      (hfnd : (fields.map Prod.fst).Nodup)
      (hdnd : (decls.map Prod.fst).Nodup)
      (hf : ConfFields env h0 n fields decls dn prs) :
      Conf env h0 (n + 1) (.ref a) (.objectS decls) dn prs
  | arrSh {n : Nat} {a : Nat} {es : List JSVal} {s : SchemaExpr}
      {dn prs : List EPair}
      (hobj : heapGet h0 a = some (.arr es))
      (hl : ConfList env h0 n es s dn prs) :
      Conf env h0 (n + 1) (.ref a) (.arrShorthand s) dn prs

/-- Conformance of the declared fields of an object: each declared key
is either absent from the input fields, or holds a conforming object
reference; the completed occurrences thread left to right exactly as
the engine processes the declarations. -/
inductive ConfFields (env : SchemaEnv) (h0 : Heap) :
    Nat → List (String × JSVal) → List (String × SchemaExpr) →
    List EPair → List EPair → Prop
  | nil {n : Nat} {fields : List (String × JSVal)} {dn : List EPair} :
      ConfFields env h0 n fields [] dn []
  | consPresent {n : Nat} {fields : List (String × JSVal)} {k : String}
      {s : SchemaExpr} {rest : List (String × SchemaExpr)}
      {dn prs1 prs2 : List EPair}
      (hhas : ahas fields k = true)
      (href : (aget fields k).isRef = true)
      (hc : Conf env h0 n (aget fields k) s dn prs1)
      (hrest : ConfFields env h0 n fields rest (dn ++ prs1) prs2) :
      ConfFields env h0 n fields ((k, s) :: rest) dn (prs1 ++ prs2)
  | consAbsent {n : Nat} {fields : List (String × JSVal)} {k : String}
      {s : SchemaExpr} {rest : List (String × SchemaExpr)}
      {dn prs : List EPair}
      (hhas : ahas fields k = false)
      (hrest : ConfFields env h0 n fields rest dn prs) :
      ConfFields env h0 n fields ((k, s) :: rest) dn prs

/-- Conformance of the elements of an array against one schema. -/
inductive ConfList (env : SchemaEnv) (h0 : Heap) :
    Nat → List JSVal → SchemaExpr → List EPair → List EPair → Prop
  | nil {n : Nat} {s : SchemaExpr} {dn : List EPair} :
      ConfList env h0 n [] s dn []
  | cons {n : Nat} {v : JSVal} {rest : List JSVal} {s : SchemaExpr}
      {dn prs1 prs2 : List EPair}
      (href : v.isRef = true)
      (hc : Conf env h0 n v s dn prs1)
      (hrest : ConfList env h0 n rest s (dn ++ prs1) prs2) :
      ConfList env h0 n (v :: rest) s dn (prs1 ++ prs2)
end

mutual
/-- Output-side normal form relative to the post-normalization heap
`hN` and entity store `store`: the result is a correct normalized form
of the conforming input value (a value of `h0`), with the listed
occurrences already completed and the last index the subtree's own
occurrences.  For a first entity occurrence, the result is the id and
the store holds the record: the input's own fields with each declared
present field replaced by the normal form of its value; for a repeated
occurrence of an already completed `((type, id), address)` pair, the
result is the id and the store slot is some record reference; for
object forms, the result references a fresh object related field-wise
to the input; for the array shorthand, element-wise.  Every record or
result address lies at or above `base` (the heap length at the start of
the subtree's normalization), which makes the relation stable under
later heap growth. -/
inductive NF (env : SchemaEnv) (h0 hN : Heap) (store : EntitiesStore) (base : Nat) :
    Nat → JSVal → SchemaExpr → JSVal → List EPair → List EPair → Prop
  | entity {n : Nat} {i : Nat} {ed : EntityDef} {a : Nat}
      {fields recFields : List (String × JSVal)} {p : Nat}
      {dn prs : List EPair}
      (henv : env[i]? = some ed)
      (hobj : heapGet h0 a = some (.obj fields))
      (hfnd : (fields.map Prod.fst).Nodup)
      (hidr : (aget fields ed.idAttribute).isRef = false)
      (hidu : aget fields ed.idAttribute ≠ .undef)
      (hidn : aget fields ed.idAttribute ≠ .null)
      (hdnd : (ed.definition.map Prod.fst).Nodup)
      (hpb : base ≤ p)
      (hbucket : hasA ((lookupA store ed.key).getD [])
          (jsToString (aget fields ed.idAttribute)) = true)
      (hrec : aget ((lookupA store ed.key).getD [])
          (jsToString (aget fields ed.idAttribute)) = .ref p)
      (hrecobj : heapGet hN p = some (.obj recFields))
      (hf : NFfields env h0 hN store base n fields ed.definition recFields dn prs) :
      NF env h0 hN store base (n + 1) (.ref a) (.entity i)
        (aget fields ed.idAttribute)
        dn (((ed.key, jsToString (aget fields ed.idAttribute)), a) :: prs)
  | entityCached {n : Nat} {i : Nat} {ed : EntityDef} {a : Nat}
      {fields : List (String × JSVal)} {p : Nat} {dn : List EPair}
      (henv : env[i]? = some ed)
      (hobj : heapGet h0 a = some (.obj fields))
      (hidr : (aget fields ed.idAttribute).isRef = false)
      (hidu : aget fields ed.idAttribute ≠ .undef)
      (hidn : aget fields ed.idAttribute ≠ .null)
      (hmem : ((ed.key, jsToString (aget fields ed.idAttribute)), a) ∈ dn)
      (hbucket : hasA ((lookupA store ed.key).getD [])
          (jsToString (aget fields ed.idAttribute)) = true)
      (hrec : aget ((lookupA store ed.key).getD [])
          (jsToString (aget fields ed.idAttribute)) = .ref p) :
      NF env h0 hN store base (n + 1) (.ref a) (.entity i)
        (aget fields ed.idAttribute) dn []
  | objSh {n : Nat} {a : Nat} {fields outFields : List (String × JSVal)}
      {decls : List (String × SchemaExpr)} {p : Nat} {dn prs : List EPair}
      (hobj : heapGet h0 a = some (.obj fields))
      (hfnd : (fields.map Prod.fst).Nodup)
      (hdnd : (decls.map Prod.fst).Nodup)
      (hpb : base ≤ p)
      (hrecobj : heapGet hN p = some (.obj outFields))
      (hf : NFfields env h0 hN store base n fields decls outFields dn prs) :
      NF env h0 hN store base (n + 1) (.ref a) (.objShorthand decls) (.ref p) dn prs
  | objS {n : Nat} {a : Nat} {fields outFields : List (String × JSVal)}
      {decls : List (String × SchemaExpr)} {p : Nat} {dn prs : List EPair}
      (hobj : heapGet h0 a = some (.obj fields))
      (hfnd : (fields.map Prod.fst).Nodup)
      (hdnd : (decls.map Prod.fst).Nodup)
      (hpb : base ≤ p)
      (hrecobj : heapGet hN p = some (.obj outFields))
      (hf : NFfields env h0 hN store base n fields decls outFields dn prs) :
      NF env h0 hN store base (n + 1) (.ref a) (.objectS decls) (.ref p) dn prs
  | arrSh {n : Nat} {a : Nat} {es rs : List JSVal} {s : SchemaExpr}
      {p : Nat} {dn prs : List EPair}
      (hobj : heapGet h0 a = some (.arr es))
      (hpb : base ≤ p)
      (hrecobj : heapGet hN p = some (.arr rs))
      (hl : NFlist env h0 hN store base n es s rs dn prs) :
      NF env h0 hN store base (n + 1) (.ref a) (.arrShorthand s) (.ref p) dn prs

/-- Field-wise normal form, threading the partially rewritten field
list exactly as the engine's field loops do, and threading the
completed occurrences left to right. -/
inductive NFfields (env : SchemaEnv) (h0 hN : Heap) (store : EntitiesStore) (base : Nat) :
    Nat → List (String × JSVal) → List (String × SchemaExpr) →
    List (String × JSVal) → List EPair → List EPair → Prop
  | nil {n : Nat} {fields : List (String × JSVal)} {dn : List EPair} :
      NFfields env h0 hN store base n fields [] fields dn []
  | consPresent {n : Nat} {fields out : List (String × JSVal)} {k : String}
      {s : SchemaExpr} {rest : List (String × SchemaExpr)} {r : JSVal}
      {dn prs1 prs2 : List EPair}
      (hhas : ahas fields k = true)
      (href : (aget fields k).isRef = true)
      (hnf : NF env h0 hN store base n (aget fields k) s r dn prs1)
      (hrest : NFfields env h0 hN store base n (aset fields k r) rest out
        (dn ++ prs1) prs2) :
      NFfields env h0 hN store base n fields ((k, s) :: rest) out dn (prs1 ++ prs2)
  | consAbsent {n : Nat} {fields out : List (String × JSVal)} {k : String}
      {s : SchemaExpr} {rest : List (String × SchemaExpr)} {dn prs : List EPair}
      (hhas : ahas fields k = false)
      (hrest : NFfields env h0 hN store base n fields rest out dn prs) :
      NFfields env h0 hN store base n fields ((k, s) :: rest) out dn prs

/-- Element-wise normal form of an array. -/
inductive NFlist (env : SchemaEnv) (h0 hN : Heap) (store : EntitiesStore) (base : Nat) :
    Nat → List JSVal → SchemaExpr → List JSVal → List EPair → List EPair → Prop
  | nil {n : Nat} {s : SchemaExpr} {dn : List EPair} :
      NFlist env h0 hN store base n [] s [] dn []
  | cons {n : Nat} {v r : JSVal} {rest rs : List JSVal} {s : SchemaExpr}
      {dn prs1 prs2 : List EPair}
      (href : v.isRef = true)
      (hnf : NF env h0 hN store base n v s r dn prs1)
      (hrest : NFlist env h0 hN store base n rest s rs (dn ++ prs1) prs2) :
      NFlist env h0 hN store base n (v :: rest) s (r :: rs) dn (prs1 ++ prs2)
end

theorem ahas_iff_mem (fs : List (String × JSVal)) (k : String) :
    ahas fs k = true ↔ k ∈ fs.map Prod.fst := by
  induction fs with
  | nil => simp [ahas]
  | cons hd tl ih =>
    obtain ⟨k0, v0⟩ := hd
    simp only [ahas, List.map_cons, List.mem_cons, Bool.or_eq_true, decide_eq_true_eq, ih]
    constructor
    · rintro (h | h)
      · exact Or.inl h.symm
      · exact Or.inr h
    · rintro (h | h)
      · exact Or.inl h.symm
      · exact Or.inr h

theorem aget_aset (fs : List (String × JSVal)) (k k' : String) (v : JSVal) :
    aget (aset fs k v) k' = if k = k' then v else aget fs k' := by
  induction fs with
  | nil => by_cases h : k = k' <;> simp [aset, aget, h]
  | cons hd tl ih =>
    obtain ⟨k0, v0⟩ := hd
    by_cases h0 : k0 = k
    · subst h0
      by_cases h1 : k0 = k' <;> simp [aset, aget, h1]
    · by_cases h1 : k0 = k'
      · have h2 : ¬ (k = k') := fun h => h0 (h1.trans h.symm)
        have h3 : ¬ (k' = k) := fun h => h2 h.symm
        simp [aset, aget, h0, h1, h2, h3]
      · simp [aset, aget, h0, h1, ih]

theorem aget_aspread (a b : List (String × JSVal)) (k : String)
    (hnd : (b.map Prod.fst).Nodup) :
    aget (aspread a b) k = if ahas b k then aget b k else aget a k := by
  induction b generalizing a with
  | nil => simp [aspread, ahas]
  | cons hd tl ih =>
    obtain ⟨k0, v0⟩ := hd
    simp only [List.map_cons, List.nodup_cons] at hnd
    show aget (aspread (aset a k0 v0) tl) k = _
    rw [ih _ hnd.2]
    by_cases h0 : k0 = k
    · subst h0
      have hf : ahas tl k0 = false := by
        rw [Bool.eq_false_iff]
        intro hc
        exact hnd.1 ((ahas_iff_mem tl k0).mp hc)
      simp [ahas, aget, hf, aget_aset]
    · by_cases h1 : ahas tl k <;> simp [ahas, aget, aget_aset, h0, h1]

/-! ## Claim theorems -/

/-- C3: normalizing a self-referential user (its `friends` array
contains the very same object) terminates and stores
`entities.users["1"].friends = [1]`; and in general, when the exact
input reference has already been visited for its (type, id), Entity
normalization returns the id immediately, leaving the heap and the
entity store untouched. -/
theorem normalize_cycle_safe :
    (∃ st, normalize 10 usersEnv (.ref 0) (.entity 0) cyclicUserHeap = .ok (.num 1, st) ∧
      readback 3 st.heap
        (getPropJS st.heap (aget ((lookupA st.entities "users").getD []) "1") "friends")
        = some (.parr [.num 1]))
    ∧ ∀ (ed : EntityDef) (input parent : JSVal) (key : Option String)
        (vfn : VisitFn) (st : NState),
        validateEntity st.heap input = none →
        input ∈ (lookupA ((lookupA st.visited ed.key).getD [])
            (jsToString (entityGetId st.heap ed input))).getD [] →
        ∃ st', entityNormalize ed input parent key vfn st
            = .ok (entityGetId st.heap ed input, st')
          ∧ st'.heap = st.heap ∧ st'.entities = st.entities := by
  constructor
  · exact ⟨_, rfl, rfl⟩
  · intro ed input parent key vfn st hvalid hmem
    unfold entityNormalize
    rw [hvalid]
    simp only []
    rw [if_pos]
    · exact ⟨_, rfl, rfl, rfl⟩
    · exact List.elem_iff.mpr hmem

/-- Witness for C3's general short-circuit part at a concrete state. -/
theorem normalize_cycle_safe_witness :
    ∃ st', entityNormalize ⟨"users", "id", [], fun _ => .val .undef⟩ (.ref 0) .undef none
        (fun v _ _ _ st => .ok (v, st))
        ⟨[.obj [("id", .num 1)]], [], [("users", [("1", [.ref 0])])]⟩
        = .ok (entityGetId [.obj [("id", .num 1)]] ⟨"users", "id", [], fun _ => .val .undef⟩ (.ref 0), st')
      ∧ st'.heap = [.obj [("id", .num 1)]] ∧ st'.entities = [] :=
  normalize_cycle_safe.2 _ _ _ _ _ _ rfl (by decide)

/-- C4: normalizing `[ \x7bid:1,name:'foo'\x7d, \x7bid:1,name:'bar',alias:'bar'\x7d ]`
through an entity schema stores exactly one record
`\x7bid:1,name:'bar',alias:'bar'\x7d`; and in general the default merge
produces the spread of the two records, a shallow field-wise union in
which the later (incoming) record wins on key conflicts. -/
theorem merge_last_wins :
    (∃ st, normalize 10 usersFlatEnv (.ref 2) (.arrShorthand (.entity 0)) mergeHeap
        = .ok (.ref 6, st) ∧
      st.entities = [("users", [("1", .ref 5)])] ∧
      readback 2 st.heap (.ref 5)
        = some (.pobj [("id", .num 1), ("name", .str "bar"), ("alias", .str "bar")]))
    ∧ (∀ (h : Heap) (existing incoming : JSVal),
        mergeRecords h existing incoming
          = .obj (aspread (spreadFieldsOf h existing) (spreadFieldsOf h incoming)))
    ∧ ∀ (a b : List (String × JSVal)) (k : String), (b.map Prod.fst).Nodup →
        aget (aspread a b) k = if ahas b k then aget b k else aget a k := by
  refine ⟨⟨_, rfl, rfl, rfl⟩, fun _ _ _ => rfl, ?_⟩
  intro a b k hnd
  exact aget_aspread a b k hnd

/-- Witness for C4's merge-lookup part at concrete records. -/
theorem merge_last_wins_witness :
    aget (aspread [("id", .num 1), ("name", .str "foo")]
      [("id", .num 1), ("name", .str "bar"), ("alias", .str "bar")]) "name"
      = if ahas [("id", JSVal.num 1), ("name", JSVal.str "bar"), ("alias", JSVal.str "bar")] "name"
        then aget [("id", JSVal.num 1), ("name", JSVal.str "bar"), ("alias", JSVal.str "bar")] "name"
        else aget [("id", JSVal.num 1), ("name", JSVal.str "foo")] "name" :=
  merge_last_wins.2.2 _ _ _ (by decide)

/-- C5: a Union over user/group with discriminator `type` normalizes
`\x7bid:1, type:'user'\x7d` to the tag `\x7bid:1, schema:'user'\x7d` and denormalizing
that tag through the same Union recovers the original shape; and for a
single-schema polymorphic container, `normalizeValue` returns the bare
visit result (no tag). -/
theorem union_roundtrip_and_single_bare_id :
    (∃ st, normalize 10 usersGroupsEnv (.ref 0) userGroupUnion unionInputHeap
        = .ok (.ref 2, st) ∧
      readback 2 st.heap (.ref 2) = some (.pobj [("id", .num 1), ("schema", .str "user")]) ∧
      ∃ out st2, denormalize 10 usersGroupsEnv (.ref 2) userGroupUnion st.entities st.heap
          = .ok (out, st2) ∧
        readback 2 st2.heap out = some (.pobj [("id", .num 1), ("type", .str "user")]) ∧
        readback 2 unionInputHeap (.ref 0) = some (.pobj [("id", .num 1), ("type", .str "user")]))
    ∧ ∀ (s : SchemaExpr) (value parent : JSVal) (key : String) (vfn : VisitFn) (st : NState),
        polyNormalizeValue (.single s) value parent key vfn st = vfn value parent (some key) s st := by
  constructor
  · exact ⟨_, rfl, rfl, _, _, rfl, rfl, rfl⟩
  · intro s value parent key vfn st
    unfold polyNormalizeValue
    simp only []
    cases h : vfn value parent (some key) s st with
    | error e => rfl
    | ok p => obtain ⟨nv, st'⟩ := p; rfl

theorem except_bind_ok {α β : Type} (v : α) (f : α → Except JSErr β) :
    (Except.ok v >>= f) = f v := rfl

theorem except_bind_err {α β : Type} (e : JSErr) (f : α → Except JSErr β) :
    ((Except.error e : Except JSErr α) >>= f) = .error e := rfl

theorem bindErrInv {α β : Type} {m : Except JSErr α} {f : α → Except JSErr β} {e : JSErr}
    (h : (m >>= f) = .error e) : m = .error e ∨ ∃ v, m = .ok v ∧ f v = .error e := by
  cases m with
  | error e' => rw [except_bind_err] at h; cases h; exact Or.inl rfl
  | ok v => rw [except_bind_ok] at h; exact Or.inr ⟨v, rfl, h⟩

theorem bindOkInv {α β : Type} {m : Except JSErr α} {f : α → Except JSErr β} {r : β}
    (h : (m >>= f) = .ok r) : ∃ v, m = .ok v ∧ f v = .ok r := by
  cases m with
  | error e' => rw [except_bind_err] at h; cases h
  | ok v => rw [except_bind_ok] at h; exact ⟨v, rfl, h⟩

theorem unvisitList_err {P : JSErr → Prop} {u : UnvisitFn} (hu : UErrsIn P u)
    (schema : SchemaExpr) :
    ∀ (l : List JSVal) (st : DState) (e : JSErr),
      unvisitList u schema l st = .error e → P e := by
  intro l
  induction l with
  | nil => intro st e h; exact absurd h (by simp [unvisitList])
  | cons v rest ih =>
    intro st e h
    unfold unvisitList at h
    rcases bindErrInv h with h | ⟨⟨r, st'⟩, h1, h⟩
    · exact hu _ _ _ _ h
    · try simp only [] at h
      rcases bindErrInv h with h | ⟨⟨rs, st''⟩, h2, h⟩
      · exact ih _ _ h
      · try simp only [] at h
        cases h

theorem immDenormFields_err {P : JSErr → Prop} {u : UnvisitFn} (hu : UErrsIn P u) :
    ∀ (l : List (String × SchemaExpr)) (obj : JSVal) (st : DState) (e : JSErr),
      immDenormalizeFields u l obj st = .error e → P e := by
  intro l
  induction l with
  | nil => intro obj st e h; exact absurd h (by simp [immDenormalizeFields])
  | cons kv rest ih =>
    obtain ⟨k, s⟩ := kv
    intro obj st e h
    unfold immDenormalizeFields at h
    split at h
    · rcases bindErrInv h with h | ⟨⟨r, st'⟩, h1, h⟩
      · exact hu _ _ _ _ h
      · try simp only [] at h
        exact ih _ _ _ h
    · exact ih _ _ _ h

theorem entityDenormFields_err {P : JSErr → Prop} {u : UnvisitFn} (hu : UErrsIn P u)
    (addr : Nat) :
    ∀ (l : List (String × SchemaExpr)) (st : DState) (e : JSErr),
      entityDenormFields u addr l st = .error e → P e := by
  intro l
  induction l with
  | nil => intro st e h; exact absurd h (by simp [entityDenormFields])
  | cons kv rest ih =>
    obtain ⟨k, s⟩ := kv
    intro st e h
    unfold entityDenormFields at h
    split at h
    · split at h
      · rcases bindErrInv h with h | ⟨⟨r, st'⟩, h1, h⟩
        · exact hu _ _ _ _ h
        · try simp only [] at h
          exact ih _ _ h
      · exact ih _ _ h
    · exact ih _ _ h

theorem entityDenormalize_err {P : JSErr → Prop} {u : UnvisitFn} (hu : UErrsIn P u)
    (ed : EntityDef) (entityVal : JSVal) (st : DState) (e : JSErr)
    (h : entityDenormalize ed entityVal u st = .error e) : P e := by
  unfold entityDenormalize at h
  split at h
  · exact immDenormFields_err hu _ _ _ _ h
  · split at h
    · rcases bindErrInv h with h | ⟨st', h1, h⟩
      · exact entityDenormFields_err hu _ _ _ _ h
      · try simp only [] at h
        cases h
    · cases h

theorem unvisitEntityBuild_err {P : JSErr → Prop} {u : UnvisitFn} (hu : UErrsIn P u)
    (ed : EntityDef) (idKey cacheKey : String) (entity : JSVal) (st : DState) (e : JSErr)
    (h : unvisitEntityBuild ed idKey cacheKey entity u st = .error e) : P e := by
  unfold unvisitEntityBuild at h
  try simp only [heapAlloc] at h
  split at h
  · rename_i e1 heq
    cases h
    exact entityDenormalize_err hu _ _ _ _ heq
  · cases h

theorem unvisitEntity_err {P : JSErr → Prop} {u : UnvisitFn} (hu : UErrsIn P u)
    (hP : ∀ k i, P (.circularImmutable k i))
    (ed : EntityDef) (id : JSVal) (entities : EntitiesStore) (st : DState) (e : JSErr)
    (h : unvisitEntity ed id u entities st = .error e) : P e := by
  unfold unvisitEntity at h
  try simp only [] at h
  repeat' split at h
  all_goals first
    | (cases h <;> exact hP _ _)
    | exact unvisitEntityBuild_err hu _ _ _ _ _ _ h

theorem objectDenormFields_err {P : JSErr → Prop} {u : UnvisitFn} (hu : UErrsIn P u) :
    ∀ (l : List (String × SchemaExpr)) (acc : List (String × JSVal)) (st : DState) (e : JSErr),
      objectDenormFields u l acc st = .error e → P e := by
  intro l
  induction l with
  | nil => intro acc st e h; exact absurd h (by simp [objectDenormFields])
  | cons kv rest ih =>
    obtain ⟨k, s⟩ := kv
    intro acc st e h
    unfold objectDenormFields at h
    split at h
    · rcases bindErrInv h with h | ⟨⟨r, st'⟩, h1, h⟩
      · exact hu _ _ _ _ h
      · try simp only [] at h
        exact ih _ _ _ h
    · exact ih _ _ _ h

theorem objectDenormalize_err {P : JSErr → Prop} {u : UnvisitFn} (hu : UErrsIn P u)
    (fields : List (String × SchemaExpr)) (input : JSVal) (st : DState) (e : JSErr)
    (h : objectDenormalize fields input u st = .error e) : P e := by
  unfold objectDenormalize at h
  split at h
  · exact immDenormFields_err hu _ _ _ _ h
  · rcases bindErrInv h with h | ⟨⟨fs, st'⟩, h1, h⟩
    · exact objectDenormFields_err hu _ _ _ _ h
    · try simp only [] at h
      cases h

theorem arrayShorthandDenormalize_err {P : JSErr → Prop} {u : UnvisitFn} (hu : UErrsIn P u)
    (elem : SchemaExpr) (input : JSVal) (st : DState) (e : JSErr)
    (h : arrayShorthandDenormalize elem input u st = .error e) : P e := by
  unfold arrayShorthandDenormalize at h
  repeat' split at h
  all_goals try cases h
  rcases bindErrInv (by assumption) with h2 | ⟨⟨rs, st'⟩, h1, h2⟩
  · exact unvisitList_err hu _ _ _ _ h2
  · try simp only [] at h2
    cases h2

theorem polyDenormalizeValue_err {P : JSErr → Prop} {u : UnvisitFn} (hu : UErrsIn P u)
    (hT : ∀ s, P (.typeError s))
    (d : PolyDef) (value : JSVal) (st : DState) (e : JSErr)
    (h : polyDenormalizeValue d value u st = .error e) : P e := by
  unfold polyDenormalizeValue at h
  try simp only [] at h
  repeat' split at h
  all_goals first
    | (cases h <;> exact hT _)
    | exact hu _ _ _ _ h

theorem polyDenormalizeList_err {P : JSErr → Prop} {u : UnvisitFn} (hu : UErrsIn P u)
    (hT : ∀ s, P (.typeError s)) (d : PolyDef) :
    ∀ (l : List JSVal) (st : DState) (e : JSErr),
      polyDenormalizeList d u l st = .error e → P e := by
  intro l
  induction l with
  | nil => intro st e h; exact absurd h (by simp [polyDenormalizeList])
  | cons v rest ih =>
    intro st e h
    unfold polyDenormalizeList at h
    rcases bindErrInv h with h | ⟨⟨r, st'⟩, h1, h⟩
    · exact polyDenormalizeValue_err hu hT _ _ _ _ h
    · try simp only [] at h
      rcases bindErrInv h with h | ⟨⟨rs, st''⟩, h2, h⟩
      · exact ih _ _ h
      · try simp only [] at h
        cases h

theorem arraySchemaDenormalize_err {P : JSErr → Prop} {u : UnvisitFn} (hu : UErrsIn P u)
    (hT : ∀ s, P (.typeError s))
    (d : PolyDef) (input : JSVal) (st : DState) (e : JSErr)
    (h : arraySchemaDenormalize d input u st = .error e) : P e := by
  unfold arraySchemaDenormalize at h
  repeat' split at h
  all_goals try cases h
  rcases bindErrInv (by assumption) with h2 | ⟨⟨rs, st'⟩, h1, h2⟩
  · exact polyDenormalizeList_err hu hT _ _ _ _ h2
  · try simp only [] at h2
    cases h2

theorem valuesDenormKeys_err {P : JSErr → Prop} {u : UnvisitFn} (hu : UErrsIn P u)
    (hT : ∀ s, P (.typeError s)) (d : PolyDef) (input : JSVal) :
    ∀ (ks : List String) (acc : List (String × JSVal)) (st : DState) (e : JSErr),
      valuesDenormKeys d input u ks acc st = .error e → P e := by
  intro ks
  induction ks with
  | nil => intro acc st e h; exact absurd h (by simp [valuesDenormKeys])
  | cons k rest ih =>
    intro acc st e h
    unfold valuesDenormKeys at h
    rcases bindErrInv h with h | ⟨⟨r, st'⟩, h1, h⟩
    · exact polyDenormalizeValue_err hu hT _ _ _ _ h
    · try simp only [] at h
      exact ih _ _ _ h

theorem valuesSchemaDenormalize_err {P : JSErr → Prop} {u : UnvisitFn} (hu : UErrsIn P u)
    (hT : ∀ s, P (.typeError s))
    (d : PolyDef) (input : JSVal) (st : DState) (e : JSErr)
    (h : valuesSchemaDenormalize d input u st = .error e) : P e := by
  unfold valuesSchemaDenormalize at h
  try simp only [] at h
  rcases bindErrInv h with h | ⟨⟨fs, st'⟩, h1, h⟩
  · exact valuesDenormKeys_err hu hT _ _ _ _ _ _ h
  · try simp only [] at h
    cases h

/-- Every error an `unvisit` run can produce is a circular-reference
error, a type error, or fuel exhaustion. -/
theorem unvisit_err :
    ∀ (fuel : Nat) (env : SchemaEnv) (entities : EntitiesStore)
      (input : JSVal) (schema : SchemaExpr) (st : DState) (e : JSErr),
      unvisit fuel env entities input schema st = .error e → DenormErr e := by
  intro fuel
  induction fuel with
  | zero =>
    intro env entities input schema st e h
    unfold unvisit at h
    cases h
    exact Or.inr (Or.inr rfl)
  | succ fuel ih =>
    intro env entities input schema st e h
    have hu : UErrsIn DenormErr (unvisit fuel env entities) :=
      fun v s st' e' h' => ih env entities v s st' e' h'
    have hT : ∀ s, DenormErr (.typeError s) := fun s => Or.inr (Or.inl ⟨s, rfl⟩)
    have hC : ∀ k i, DenormErr (.circularImmutable k i) := fun k i => Or.inl ⟨k, i, rfl⟩
    unfold unvisit at h
    try simp only [] at h
    split at h
    · exact arrayShorthandDenormalize_err hu _ _ _ _ h
    · exact objectDenormalize_err hu _ _ _ _ h
    · split at h
      · cases h
      · exact objectDenormalize_err hu _ _ _ _ h
    · split at h
      · cases h
      · split at h
        · exact unvisitEntity_err hu hC _ _ _ _ _ h
        · cases h; exact hT _
    · split at h
      · cases h
      · exact arraySchemaDenormalize_err hu hT _ _ _ _ h
    · split at h
      · cases h
      · exact valuesSchemaDenormalize_err hu hT _ _ _ _ h
    · split at h
      · cases h
      · exact polyDenormalizeValue_err hu hT _ _ _ _ h

/-- Every error `denormalize` can produce is a circular-reference
error, a type error, or fuel exhaustion. -/
theorem denormalize_err (fuel : Nat) (env : SchemaEnv) (input : JSVal)
    (schema : SchemaExpr) (entities : EntitiesStore) (h0 : Heap) (e : JSErr)
    (h : denormalize fuel env input schema entities h0 = .error e) : DenormErr e := by
  unfold denormalize at h
  split at h
  · cases h
  · exact unvisit_err fuel env entities input schema _ e h

theorem visitList_err {P : JSErr → Prop} {vfn : VisitFn} (hv : VErrsIn P vfn)
    (parent : JSVal) (key : Option String) (schema : SchemaExpr) :
    ∀ (l : List JSVal) (st : NState) (e : JSErr),
      visitList vfn parent key schema l st = .error e → P e := by
  intro l
  induction l with
  | nil => intro st e h; exact absurd h (by simp [visitList])
  | cons v rest ih =>
    intro st e h
    unfold visitList at h
    rcases bindErrInv h with h | ⟨⟨r, st'⟩, h1, h⟩
    · exact hv _ _ _ _ _ _ h
    · try simp only [] at h
      rcases bindErrInv h with h | ⟨⟨rs, st''⟩, h2, h⟩
      · exact ih _ _ h
      · try simp only [] at h
        cases h

theorem arrayShorthandNormalize_err {P : JSErr → Prop} {vfn : VisitFn} (hv : VErrsIn P vfn)
    (elem : SchemaExpr) (input parent : JSVal) (key : Option String) (st : NState) (e : JSErr)
    (h : arrayShorthandNormalize elem input parent key vfn st = .error e) : P e := by
  unfold arrayShorthandNormalize at h
  try simp only [] at h
  rcases bindErrInv h with h | ⟨⟨rs, st'⟩, h1, h⟩
  · exact visitList_err hv _ _ _ _ _ _ h
  · try simp only [] at h
    cases h

theorem objectNormalizeFields_err {P : JSErr → Prop} {vfn : VisitFn} (hv : VErrsIn P vfn)
    (input : JSVal) :
    ∀ (l : List (String × SchemaExpr)) (acc : List (String × JSVal)) (st : NState) (e : JSErr),
      objectNormalizeFields vfn input l acc st = .error e → P e := by
  intro l
  induction l with
  | nil => intro acc st e h; exact absurd h (by simp [objectNormalizeFields])
  | cons kv rest ih =>
    obtain ⟨k, s⟩ := kv
    intro acc st e h
    unfold objectNormalizeFields at h
    rcases bindErrInv h with h | ⟨⟨r, st'⟩, h1, h⟩
    · exact hv _ _ _ _ _ _ h
    · try simp only [] at h
      exact ih _ _ _ h

theorem objectShorthandNormalize_err {P : JSErr → Prop} {vfn : VisitFn} (hv : VErrsIn P vfn)
    (fields : List (String × SchemaExpr)) (input : JSVal) (st : NState) (e : JSErr)
    (h : objectShorthandNormalize fields input vfn st = .error e) : P e := by
  unfold objectShorthandNormalize at h
  try simp only [] at h
  rcases bindErrInv h with h | ⟨⟨fs, st'⟩, h1, h⟩
  · exact objectNormalizeFields_err hv _ _ _ _ _ h
  · try simp only [] at h
    cases h

theorem entityVisitFields_err {P : JSErr → Prop} {vfn : VisitFn} (hv : VErrsIn P vfn)
    (paddr : Nat) :
    ∀ (l : List (String × SchemaExpr)) (st : NState) (e : JSErr),
      entityVisitFields vfn paddr l st = .error e → P e := by
  intro l
  induction l with
  | nil => intro st e h; exact absurd h (by simp [entityVisitFields])
  | cons kv rest ih =>
    obtain ⟨k, s⟩ := kv
    intro st e h
    unfold entityVisitFields at h
    split at h
    · split at h
      · rcases bindErrInv h with h | ⟨⟨r, st'⟩, h1, h⟩
        · exact hv _ _ _ _ _ _ h
        · try simp only [] at h
          exact ih _ _ h
      · exact ih _ _ h
    · exact ih _ _ h

theorem entityNormalize_err {P : JSErr → Prop} {vfn : VisitFn} (hv : VErrsIn P vfn)
    (hV : ∀ k kind, P (.entityValidation k kind))
    (ed : EntityDef) (input parent : JSVal) (key : Option String) (st : NState) (e : JSErr)
    (h : entityNormalize ed input parent key vfn st = .error e) : P e := by
  unfold entityNormalize at h
  try simp only [] at h
  split at h
  · cases h; exact hV _ _
  · try simp only [] at h
    split at h
    · cases h
    · rcases bindErrInv h with h | ⟨st', h1, h⟩
      · exact entityVisitFields_err hv _ _ _ _ h
      · try simp only [] at h
        cases h

theorem polyNormalizeValue_err {P : JSErr → Prop} {vfn : VisitFn} (hv : VErrsIn P vfn)
    (d : PolyDef) (value parent : JSVal) (key : String) (st : NState) (e : JSErr)
    (h : polyNormalizeValue d value parent key vfn st = .error e) : P e := by
  unfold polyNormalizeValue at h
  try simp only [] at h
  split at h
  · cases h
  · rcases bindErrInv h with h | ⟨⟨nv, st'⟩, h1, h⟩
    · exact hv _ _ _ _ _ _ h
    · try simp only [] at h
      split at h
      · cases h
      · split at h
        · cases h
        · try simp only [heapAlloc] at h
          cases h

theorem polyNormalizeList_err {P : JSErr → Prop} {vfn : VisitFn} (hv : VErrsIn P vfn)
    (d : PolyDef) (parent : JSVal) (key : String) :
    ∀ (l : List JSVal) (st : NState) (e : JSErr),
      polyNormalizeList d parent key vfn l st = .error e → P e := by
  intro l
  induction l with
  | nil => intro st e h; exact absurd h (by simp [polyNormalizeList])
  | cons v rest ih =>
    intro st e h
    unfold polyNormalizeList at h
    rcases bindErrInv h with h | ⟨⟨r, st'⟩, h1, h⟩
    · exact polyNormalizeValue_err hv _ _ _ _ _ _ h
    · try simp only [] at h
      rcases bindErrInv h with h | ⟨⟨rs, st''⟩, h2, h⟩
      · exact ih _ _ h
      · try simp only [] at h
        cases h

theorem arraySchemaNormalize_err {P : JSErr → Prop} {vfn : VisitFn} (hv : VErrsIn P vfn)
    (d : PolyDef) (input parent : JSVal) (key : Option String) (st : NState) (e : JSErr)
    (h : arraySchemaNormalize d input parent key vfn st = .error e) : P e := by
  unfold arraySchemaNormalize at h
  try simp only [] at h
  rcases bindErrInv h with h | ⟨⟨rs, st'⟩, h1, h⟩
  · exact polyNormalizeList_err hv _ _ _ _ _ _ h
  · try simp only [] at h
    cases h

theorem valuesNormalizeKeys_err {P : JSErr → Prop} {vfn : VisitFn} (hv : VErrsIn P vfn)
    (d : PolyDef) (input : JSVal) :
    ∀ (ks : List String) (acc : List (String × JSVal)) (st : NState) (e : JSErr),
      valuesNormalizeKeys d input vfn ks acc st = .error e → P e := by
  intro ks
  induction ks with
  | nil => intro acc st e h; exact absurd h (by simp [valuesNormalizeKeys])
  | cons k rest ih =>
    intro acc st e h
    unfold valuesNormalizeKeys at h
    try simp only [] at h
    split at h
    · exact ih _ _ _ h
    · rcases bindErrInv h with h | ⟨⟨r, st'⟩, h1, h⟩
      · exact polyNormalizeValue_err hv _ _ _ _ _ _ h
      · try simp only [] at h
        exact ih _ _ _ h

theorem valuesSchemaNormalize_err {P : JSErr → Prop} {vfn : VisitFn} (hv : VErrsIn P vfn)
    (d : PolyDef) (input : JSVal) (st : NState) (e : JSErr)
    (h : valuesSchemaNormalize d input vfn st = .error e) : P e := by
  unfold valuesSchemaNormalize at h
  try simp only [] at h
  rcases bindErrInv h with h | ⟨⟨fs, st'⟩, h1, h⟩
  · exact valuesNormalizeKeys_err hv _ _ _ _ _ _ h
  · try simp only [] at h
    cases h

/-- Every error a `visit` run can produce is an entity-validation
error, a type error, or fuel exhaustion — in particular never the
top-level unexpected-input error. -/
theorem visit_err :
    ∀ (fuel : Nat) (env : SchemaEnv) (value parent : JSVal) (key : Option String)
      (schema : SchemaExpr) (st : NState) (e : JSErr),
      visit fuel env value parent key schema st = .error e → NormErr e := by
  intro fuel
  induction fuel with
  | zero =>
    intro env value parent key schema st e h
    unfold visit at h
    cases h
    exact Or.inr (Or.inr rfl)
  | succ fuel ih =>
    intro env value parent key schema st e h
    have hv : VErrsIn NormErr (visit fuel env) :=
      fun v p k s st' e' h' => ih env v p k s st' e' h'
    have hV : ∀ k kind, NormErr (.entityValidation k kind) := fun k kind => Or.inl ⟨k, kind, rfl⟩
    have hT : ∀ s, NormErr (.typeError s) := fun s => Or.inr (Or.inl ⟨s, rfl⟩)
    unfold visit at h
    try simp only [] at h
    split at h
    · cases h
    · split at h
      · exact arrayShorthandNormalize_err hv _ _ _ _ _ _ h
      · exact objectShorthandNormalize_err hv _ _ _ _ h
      · exact objectShorthandNormalize_err hv _ _ _ _ h
      · split at h
        · exact entityNormalize_err hv hV _ _ _ _ _ _ h
        · cases h; exact hT _
      · exact arraySchemaNormalize_err hv _ _ _ _ _ _ h
      · exact valuesSchemaNormalize_err hv _ _ _ _ h
      · exact polyNormalizeValue_err hv _ _ _ _ _ _ h

/-! ## Further dictionary lemmas -/

theorem lookupA_setA {α : Type} (fs : List (String × α)) (k k' : String) (v : α) :
    lookupA (setA fs k v) k' = if k = k' then some v else lookupA fs k' := by
  induction fs with
  | nil => by_cases h : k = k' <;> simp [setA, lookupA, h]
  | cons hd tl ih =>
    obtain ⟨k0, v0⟩ := hd
    by_cases h0 : k0 = k
    · subst h0
      by_cases h1 : k0 = k' <;> simp [setA, lookupA, h1]
    · by_cases h1 : k0 = k'
      · have h2 : ¬ (k = k') := fun h => h0 (h1.trans h.symm)
        have h3 : ¬ (k' = k) := fun h => h2 h.symm
        simp [setA, lookupA, h0, h1, h2, h3]
      · simp [setA, lookupA, h0, h1, ih]

theorem cacheRead_cachePut (c : List (String × List (String × JSVal)))
    (k i : String) (v : JSVal) : cacheRead (cachePut c k i v) k i = v := by
  unfold cacheRead cachePut
  rw [lookupA_setA]
  simp [aget_aset]

theorem hasA_false_lookupA {α : Type} (fs : List (String × α)) (k : String)
    (h : hasA fs k = false) : lookupA fs k = none := by
  induction fs with
  | nil => rfl
  | cons hd tl ih =>
    obtain ⟨k0, v0⟩ := hd
    simp only [hasA, Bool.or_eq_false_iff, decide_eq_false_iff_not] at h
    simp only [lookupA, if_neg h.1]
    exact ih h.2

/-! ## Behavior of `unvisitEntity` on missing, cached and fresh
records -/

/-- The build phase on a plain record with no declared nested fields:
allocates exactly the copy and returns it. -/
theorem build_plain_nodef (ed : EntityDef) (idKey cacheKey : String) (a : Nat)
    (u : UnvisitFn) (st : DState) (fs : List (String × JSVal))
    (hObj : heapGet st.heap a = some (.obj fs))
    (hdef : ed.definition = []) :
    ∃ st', unvisitEntityBuild ed idKey cacheKey (.ref a) u st
        = .ok (.ref st.heap.length, st')
      ∧ st'.heap = st.heap ++ [.obj fs] := by
  have hImm : isImmAt st.heap (.ref a) = false := by
    simp [isImmAt, hObj]
  have hSp : spreadFieldsOf st.heap (.ref a) = fs := by
    simp [spreadFieldsOf, hObj]
  have hGet2 : heapGet (st.heap ++ [JSObj.obj fs]) st.heap.length = some (.obj fs) := by
    rw [heapGet, List.getElem?_concat_length]
  have hImm2 : isImmAt (st.heap ++ [JSObj.obj fs]) (.ref st.heap.length) = false := by
    simp [isImmAt, hGet2]
  unfold unvisitEntityBuild
  simp only [heapAlloc, hImm, hSp, if_false, Bool.false_eq_true, reduceIte]
  unfold entityDenormalize
  simp only [hImm2, hdef, if_false, Bool.false_eq_true, reduceIte]
  simp only [entityDenormFields]
  simp only [except_bind_ok]
  rw [cacheRead_cachePut]
  exact ⟨_, rfl, rfl⟩

/-- Missing entity whose fallback yields a plain value: the value is
returned unchanged with no error and no state change. -/
theorem unvisitEntity_fallback_val (ed : EntityDef) (id : JSVal) (ufn : UnvisitFn)
    (entities : EntitiesStore) (st : DState) (p : JSVal)
    (hget : getEntityJS entities id ed = .undef)
    (hfb : ed.fallback id = .val p)
    (hp : p.isRef = false) :
    unvisitEntity ed id ufn entities st = .ok (p, st) := by
  unfold unvisitEntity resolveEntityRecord
  simp only [hget, hfb, if_pos rfl]
  simp [hp]

/-- Missing entity whose fallback synthesizes a record (no nested
fields): the synthesized record's copy is allocated and returned. -/
theorem unvisitEntity_fallback_record (ed : EntityDef) (id : JSVal) (ufn : UnvisitFn)
    (entities : EntitiesStore) (st : DState) (fs : List (String × JSVal))
    (hget : getEntityJS entities id ed = .undef)
    (hfb : ed.fallback id = .record fs)
    (hdef : ed.definition = [])
    (hip : st.inProg.contains (ed.key ++ ":" ++ jsToString id) = false)
    (hc : ahas ((lookupA st.cache ed.key).getD []) (jsToString id) = false) :
    ∃ st', unvisitEntity ed id ufn entities st = .ok (.ref (st.heap.length + 1), st')
      ∧ heapGet st'.heap (st.heap.length + 1) = some (.obj fs) := by
  have hL : heapGet (st.heap ++ [JSObj.obj fs]) st.heap.length = some (.obj fs) := by
    rw [heapGet, List.getElem?_concat_length]
  have hlen : (st.heap ++ [JSObj.obj fs]).length = st.heap.length + 1 := by simp
  have hip' : (ed.key ++ ":" ++ jsToString id) ∉ st.inProg := by
    simpa using hip
  unfold unvisitEntity resolveEntityRecord
  simp only [hget, hfb, heapAlloc, reduceIte]
  rw [if_neg (by simp [JSVal.isRef])]
  by_cases hb : hasA st.cache ed.key
  · simp only [hb, reduceIte]
    rw [if_neg (by simp [hip']), if_neg (by simp [hc])]
    obtain ⟨st', heq, hheap⟩ := build_plain_nodef ed (jsToString id)
      (ed.key ++ ":" ++ jsToString id) st.heap.length ufn
      ⟨st.heap ++ [JSObj.obj fs], st.cache, st.inProg⟩ fs hL hdef
    refine ⟨st', ?_, ?_⟩
    · rw [heq]
      simp [hlen]
    · rw [hheap]
      rw [heapGet, ← hlen, List.getElem?_concat_length]
  · simp only [Bool.not_eq_true] at hb
    simp only [hb, reduceIte]
    rw [if_neg (by simp [hip']), if_neg (by simp [lookupA_setA, ahas])]
    simp only [Bool.false_eq_true, if_false]
    obtain ⟨st', heq, hheap⟩ := build_plain_nodef ed (jsToString id)
      (ed.key ++ ":" ++ jsToString id) st.heap.length ufn
      ⟨st.heap ++ [JSObj.obj fs], setA st.cache ed.key [], st.inProg⟩ fs hL hdef
    refine ⟨st', ?_, ?_⟩
    · rw [heq]
      simp [hlen]
    · rw [hheap]
      rw [heapGet, ← hlen, List.getElem?_concat_length]

/-- A completed cache entry is returned as-is: repeated non-cyclic
references to the same (type, id) yield the identical instance, with
no state change. -/
theorem unvisitEntity_cached (ed : EntityDef) (id : JSVal) (ufn : UnvisitFn)
    (entities : EntitiesStore) (st : DState)
    (he : (getEntityJS entities id ed).isRef = true)
    (hip : st.inProg.contains (ed.key ++ ":" ++ jsToString id) = false)
    (hc : ahas ((lookupA st.cache ed.key).getD []) (jsToString id) = true) :
    unvisitEntity ed id ufn entities st
      = .ok (cacheRead st.cache ed.key (jsToString id), st) := by
  have hne : getEntityJS entities id ed ≠ .undef := by
    intro h
    rw [h] at he
    simp [JSVal.isRef] at he
  have hb : hasA st.cache ed.key = true := by
    by_contra hb
    simp only [Bool.not_eq_true] at hb
    rw [hasA_false_lookupA _ _ hb] at hc
    simp [ahas] at hc
  have hip' : (ed.key ++ ":" ++ jsToString id) ∉ st.inProg := by
    simpa using hip
  unfold unvisitEntity resolveEntityRecord
  rw [if_neg hne]
  simp only []
  rw [if_neg (by simp [he])]
  simp only [hb, reduceIte]
  rw [if_neg (by simp [hip']), if_pos hc]

set_option maxHeartbeats 2000000 in
/-- C2: denormalizing the cyclic user terminates and the output *is*
its own first friend (`output === output.friends[0]`, i.e. the same
heap reference); a shared sub-entity referenced twice resolves to one
identical instance; and in general a completed cache entry for a
(type, id) is returned identically with no state change. -/
theorem denormalize_referential_identity :
    (∃ st, denormalize 20 usersEnv (.num 1) (.entity 0) cyclicStore cyclicStoreHeap
        = .ok (.ref 2, st) ∧
      getPropJS st.heap (.ref 2) "friends" = .ref 3 ∧
      heapGet st.heap 3 = some (.arr [.ref 2]))
    ∧ (∃ st, denormalize 20 sharedEnv (.num 1) (.entity 0) sharedStore sharedHeap
        = .ok (.ref 2, st) ∧
      getPropJS st.heap (.ref 2) "a" = .ref 3 ∧
      getPropJS st.heap (.ref 2) "b" = .ref 3)
    ∧ ∀ (ed : EntityDef) (id : JSVal) (ufn : UnvisitFn)
        (entities : EntitiesStore) (st : DState),
        (getEntityJS entities id ed).isRef = true →
        st.inProg.contains (ed.key ++ ":" ++ jsToString id) = false →
        ahas ((lookupA st.cache ed.key).getD []) (jsToString id) = true →
        unvisitEntity ed id ufn entities st
          = .ok (cacheRead st.cache ed.key (jsToString id), st) := by
  refine ⟨⟨_, rfl, rfl, rfl⟩, ⟨_, rfl, rfl, rfl⟩, ?_⟩
  intro ed id ufn entities st he hip hc
  exact unvisitEntity_cached ed id ufn entities st he hip hc

/-- Witness for C2's cache-stability part at a concrete state. -/
theorem denormalize_referential_identity_witness :
    unvisitEntity ⟨"users", "id", [], fun _ => .val .undef⟩ (.num 1)
        (fun v _ st => .ok (v, st)) [("users", [("1", .ref 0)])]
        ⟨[.obj [("id", .num 1)]], [("users", [("1", .str "cachedValue")])], []⟩
      = .ok (cacheRead [("users", [("1", .str "cachedValue")])] "users" (jsToString (.num 1)),
          ⟨[.obj [("id", .num 1)]], [("users", [("1", .str "cachedValue")])], []⟩) :=
  denormalize_referential_identity.2.2 _ _ _ _ _ (by decide) (by decide) (by decide)

/-- C6 counterexample: a truthy tag whose `schema` key is not in the
Union's mapping makes denormalize throw a type error — a fatal case
that is not the immutable-style circular reference. -/
theorem denormalize_only_circular_fatal_cex :
    denormalize 10 usersGroupsEnv (.ref 0) userGroupUnion [] unmappedTagHeap
      = .error (.typeError "Object.keys called on undefined schema")
    ∧ ∀ k i, (JSErr.typeError "Object.keys called on undefined schema")
        ≠ .circularImmutable k i :=
  ⟨rfl, fun _ _ h => JSErr.noConfusion h⟩

/-- C6 (amended): denormalize never throws for a missing entity — the
fallback is consulted; a non-object fallback value passes through
unchanged and a synthesized record is substituted; every fatal
denormalize outcome is the immutable-style circular reference (whose
error carries and names the entity type and id), the unmapped-tag type
error, or fuel exhaustion; and the immutable cyclic store does fail
with the circular error. -/
theorem denormalize_fallback_and_fatal_cases :
    (∀ (ed : EntityDef) (id : JSVal) (ufn : UnvisitFn)
        (entities : EntitiesStore) (st : DState) (p : JSVal),
        getEntityJS entities id ed = .undef → ed.fallback id = .val p →
        p.isRef = false →
        unvisitEntity ed id ufn entities st = .ok (p, st))
    ∧ (∀ (ed : EntityDef) (id : JSVal) (ufn : UnvisitFn)
        (entities : EntitiesStore) (st : DState) (fs : List (String × JSVal)),
        getEntityJS entities id ed = .undef → ed.fallback id = .record fs →
        ed.definition = [] →
        st.inProg.contains (ed.key ++ ":" ++ jsToString id) = false →
        ahas ((lookupA st.cache ed.key).getD []) (jsToString id) = false →
        ∃ st', unvisitEntity ed id ufn entities st
            = .ok (.ref (st.heap.length + 1), st')
          ∧ heapGet st'.heap (st.heap.length + 1) = some (.obj fs))
    ∧ (∀ (fuel : Nat) (env : SchemaEnv) (input : JSVal) (schema : SchemaExpr)
        (entities : EntitiesStore) (h0 : Heap) (e : JSErr),
        denormalize fuel env input schema entities h0 = .error e → DenormErr e)
    ∧ (∀ key id, (JSErr.circularImmutable key id).message
        = "Circular reference detected for Immutable.js entity \"" ++ key
          ++ "\" with ID \"" ++ id
          ++ "\". Circular references are not supported with Immutable.js.")
    ∧ denormalize 30 usersEnv (.num 1) (.entity 0) cyclicStore immCyclicHeap
        = .error (.circularImmutable "users" "1") := by
  refine ⟨?_, ?_, ?_, fun _ _ => rfl, rfl⟩
  · intro ed id ufn entities st p h1 h2 h3
    exact unvisitEntity_fallback_val ed id ufn entities st p h1 h2 h3
  · intro ed id ufn entities st fs h1 h2 h3 h4 h5
    exact unvisitEntity_fallback_record ed id ufn entities st fs h1 h2 h3 h4 h5
  · intro fuel env input schema entities h0 e h
    exact denormalize_err fuel env input schema entities h0 e h

/-- Witness for C6's fallback parts at concrete inputs: the default
fallback passes `undefined` through for a missing id, and a
record-synthesizing fallback substitutes its record. -/
theorem denormalize_fallback_and_fatal_cases_witness :
    unvisitEntity ⟨"users", "id", [], fun _ => .val .undef⟩ (.num 9)
        (fun v _ st => .ok (v, st)) [] ⟨[], [], []⟩ = .ok (.undef, ⟨[], [], []⟩)
    ∧ ∃ st', unvisitEntity
        ⟨"users", "id", [], fun id => .record [("id", id), ("name", .str "unknown")]⟩
        (.num 9) (fun v _ st => .ok (v, st)) [] ⟨[], [], []⟩
        = .ok (.ref 1, st')
      ∧ heapGet st'.heap 1
          = some (.obj [("id", .num 9), ("name", .str "unknown")]) :=
  ⟨denormalize_fallback_and_fatal_cases.1 _ _ _ _ _ _ rfl rfl rfl,
   denormalize_fallback_and_fatal_cases.2.1 _ _ _ _ _ _ rfl rfl rfl rfl rfl⟩

/-- C7 counterexample: an array input is a non-null object, yet
normalize throws (an entity-validation error, not the top-level
unexpected-input error). -/
theorem normalize_throws_iff_cex :
    normalize 10 usersFlatEnv (.ref 0) (.entity 0) [.arr []]
      = .error (.entityValidation "users" "an array")
    ∧ (JSVal.ref 0).isRef = true
    ∧ ∀ k, (JSErr.entityValidation "users" "an array") ≠ .unexpectedInput k :=
  ⟨rfl, rfl, fun _ h => JSErr.noConfusion h⟩

/-- The top-level input guard of `normalize` accepts exactly object
references. -/
theorem normalize_guard (v : JSVal) :
    (truthy v && (typeofStr v == "object")) = v.isRef := by
  cases v <;> simp [truthy, typeofStr, JSVal.isRef]

/-- C7 (amended): `normalize` throws its unexpected-input error exactly
when the input is not a non-null object; for such inputs the error
names the received kind and the message interpolates it; when the
input is object-like, any error that propagates instead is an
entity-validation error, a type error, or fuel exhaustion — and an
error outcome carries no `result`/`entities` at all. -/
theorem normalize_throw_conditions :
    (∀ (fuel : Nat) (env : SchemaEnv) (input : JSVal) (schema : SchemaExpr) (h0 : Heap),
      (∃ k, normalize fuel env input schema h0 = .error (.unexpectedInput k))
        ↔ input.isRef = false)
    ∧ (∀ (fuel : Nat) (env : SchemaEnv) (input : JSVal) (schema : SchemaExpr) (h0 : Heap),
        input.isRef = false →
        normalize fuel env input schema h0
          = .error (.unexpectedInput (if input = .null then "null" else typeofStr input)))
    ∧ (∀ kind, (JSErr.unexpectedInput kind).message
        = "Unexpected input given to normalize. Expected type to be \"object\", found \""
          ++ kind ++ "\".")
    ∧ ∀ (fuel : Nat) (env : SchemaEnv) (input : JSVal) (schema : SchemaExpr)
        (h0 : Heap) (e : JSErr),
        normalize fuel env input schema h0 = .error e →
        (e = .unexpectedInput (if input = .null then "null" else typeofStr input))
          ∨ NormErr e := by
  have key : ∀ (fuel : Nat) (env : SchemaEnv) (input : JSVal) (schema : SchemaExpr)
      (h0 : Heap), input.isRef = false →
      normalize fuel env input schema h0
        = .error (.unexpectedInput (if input = .null then "null" else typeofStr input)) := by
    intro fuel env input schema h0 hr
    unfold normalize
    rw [if_pos]
    rw [normalize_guard, hr]
    simp
  refine ⟨?_, key, fun _ => rfl, ?_⟩
  · intro fuel env input schema h0
    constructor
    · rintro ⟨k, hk⟩
      by_contra hr
      simp only [Bool.not_eq_false] at hr
      unfold normalize at hk
      rw [if_neg (by rw [normalize_guard, hr]; simp)] at hk
      rcases visit_err fuel env input input none schema _ _ hk with ⟨k', kd, h⟩ | ⟨s, h⟩ | h <;>
        exact JSErr.noConfusion h
    · intro hr
      exact ⟨_, key fuel env input schema h0 hr⟩
  · intro fuel env input schema h0 e he
    by_cases hr : input.isRef = false
    · left
      have := key fuel env input schema h0 hr
      rw [this] at he
      cases he
      rfl
    · right
      simp only [Bool.not_eq_false] at hr
      unfold normalize at he
      rw [if_neg (by rw [normalize_guard, hr]; simp)] at he
      exact visit_err fuel env input input none schema _ _ he

/-- Witness for C7's amended parts at a concrete primitive input. -/
theorem normalize_throw_conditions_witness :
    normalize 10 usersFlatEnv (.num 5) (.entity 0) []
      = .error (.unexpectedInput (if (JSVal.num 5) = .null then "null" else typeofStr (.num 5))) :=
  normalize_throw_conditions.2.1 10 usersFlatEnv (.num 5) (.entity 0) [] rfl

/-- C9 counterexample: an ArraySchema whose discriminator function
returns the falsy key `""`, which *is* mapped — the element is
normalized (an entity is added to the store and the result is a tag),
contradicting the claim that a falsy key always passes through. -/
theorem poly_falsy_discriminator_cex :
    (∃ st, normalize 10 usersFlatEnv (.ref 1) falsyKeySchema falsyKeyHeap
        = .ok (.ref 4, st) ∧
      st.entities = [("users", [("1", .ref 2)])] ∧
      heapGet st.heap 4 = some (.arr [.ref 3]) ∧
      heapGet st.heap 3 = some (.obj [("id", .num 1), ("schema", .str "")]))
    ∧ truthy (.str "") = false :=
  ⟨⟨_, rfl, rfl, rfl, rfl⟩, rfl⟩

/-- C9 (amended): for every polymorphic container, if the discriminator
yields the literal `false` or a value whose JS string coercion is not a
key of the mapping, the element passes through untouched: the value is
returned unchanged, and the store, heap and visit state are untouched
(no entity produced, no error). -/
theorem poly_unresolved_discriminator_passthrough :
    ∀ (mapping : List (String × SchemaExpr)) (disc : Discriminator)
      (value parent : JSVal) (key : String) (vfn : VisitFn) (st : NState),
      (applyDisc st.heap disc value parent (.str key) = .bool false ∨
        lookupA mapping (jsToString (applyDisc st.heap disc value parent (.str key))) = none) →
      polyNormalizeValue (.poly mapping disc) value parent key vfn st = .ok (value, st) := by
  intro mapping disc value parent key vfn st hd
  unfold polyNormalizeValue
  simp only []
  rcases hd with hd | hd
  · rw [if_pos hd]
  · by_cases hf : applyDisc st.heap disc value parent (.str key) = .bool false
    · rw [if_pos hf]
    · rw [if_neg hf, hd]

/-- Witness for C9's amended pass-through at a concrete unmapped
discriminator result. -/
theorem poly_unresolved_discriminator_passthrough_witness :
    polyNormalizeValue (.poly [("user", .entity 0)] (.fn (fun _ _ _ _ => .str "nope")))
        (.ref 0) JSVal.undef "" (fun v _ _ _ st => .ok (v, st)) ⟨[.obj []], [], []⟩
      = .ok (.ref 0, ⟨[.obj []], [], []⟩) :=
  poly_unresolved_discriminator_passthrough _ _ _ _ _ _ _ (Or.inr rfl)

theorem typeofStr_object_iff (v : JSVal) :
    typeofStr v = "object" ↔ (v = .null ∨ v.isRef = true) := by
  cases v <;> simp [typeofStr, JSVal.isRef]

theorem validateEntity_eq (h : Heap) (v : JSVal) : validateEntity h v =
    if v = .null then some "null"
    else if v.isRef = false then some (typeofStr v)
    else if isArrayAt h v then some "an array" else none := by
  unfold validateEntity
  by_cases h1 : v = JSVal.null <;> by_cases h2 : v.isRef <;> simp [h1, h2]

/-- C8: `EntitySchema.validate` rejects exactly null, arrays and
non-objects; the rejection kind reported is "null" / "an array" / the
JS typeof; the thrown error's message names the entity key and the
kind; a rejection aborts `EntitySchema.normalize` with that error; and
a whole `normalize` call over an array-valued entity aborts with it. -/
theorem entity_validation_characterization :
    (∀ (h : Heap) (v : JSVal),
      (∃ kind, validateEntity h v = some kind)
        ↔ (v = .null ∨ isArrayAt h v = true ∨ typeofStr v ≠ "object"))
    ∧ (∀ (h : Heap) (v : JSVal) (kind : String), validateEntity h v = some kind →
        kind = (if v = .null then "null"
                else if isArrayAt h v then "an array" else typeofStr v))
    ∧ (∀ key kind, (JSErr.entityValidation key kind).message
        = "Expected an object for entity \"" ++ key ++ "\", but received "
          ++ kind ++ ".")
    ∧ (∀ (ed : EntityDef) (input parent : JSVal) (k : Option String)
        (vfn : VisitFn) (st : NState) (kind : String),
        validateEntity st.heap input = some kind →
        entityNormalize ed input parent k vfn st = .error (.entityValidation ed.key kind))
    ∧ normalize 10 usersFlatEnv (.ref 0) (.entity 0) [.arr []]
        = .error (.entityValidation "users" "an array") := by
  refine ⟨?_, ?_, fun _ _ => rfl, ?_, rfl⟩
  · intro h v
    rw [validateEntity_eq]
    by_cases h1 : v = JSVal.null
    · simp [h1]
    · by_cases h2 : v.isRef
      · by_cases h3 : isArrayAt h v
        · simp [h1, h2, h3]
        · simp [h1, h2, h3, typeofStr_object_iff]
      · have hno : typeofStr v ≠ "object" := by
          intro hc
          rw [typeofStr_object_iff] at hc
          rcases hc with hc | hc
          · exact h1 hc
          · simp [hc] at h2
        simp only [Bool.not_eq_true] at h2
        simp [h1, h2, hno]
  · intro h v kind hv
    rw [validateEntity_eq] at hv
    by_cases h1 : v = JSVal.null
    · rw [if_pos h1] at hv
      cases hv
      rw [if_pos h1]
    · rw [if_neg h1] at hv
      by_cases h2 : v.isRef
      · rw [if_neg (by simp [h2])] at hv
        by_cases h3 : isArrayAt h v
        · rw [if_pos h3] at hv
          cases hv
          rw [if_neg h1, if_pos h3]
        · rw [if_neg h3] at hv
          cases hv
      · simp only [Bool.not_eq_true] at h2
        rw [if_pos h2] at hv
        cases hv
        have h3 : isArrayAt h v = false := by
          cases v with
          | ref a => simp [JSVal.isRef] at h2
          | _ => rfl
        rw [if_neg h1, if_neg (by simp [h3])]
  · intro ed input parent k vfn st kind hv
    unfold entityNormalize
    rw [hv]

/-- Witness for C8's abort-propagation part at a concrete input. -/
theorem entity_validation_characterization_witness :
    entityNormalize ⟨"users", "id", [], fun _ => .val .undef⟩ (.str "oops") .undef none
        (fun v _ _ _ st => .ok (v, st)) ⟨[], [], []⟩
      = .error (.entityValidation "users" "string") :=
  entity_validation_characterization.2.2.2.1 _ _ _ _ _ _ _ rfl

theorem frame_refl {base : Nat} {h : Heap} (hl : base ≤ h.length) :
    HeapFrame base h h := ⟨hl, fun _ _ => rfl⟩

theorem frame_trans {base : Nat} {h h1 h2 : Heap}
    (a : HeapFrame base h h1) (b : HeapFrame base h1 h2) : HeapFrame base h h2 :=
  ⟨b.1, fun x hx => (b.2 x hx).trans (a.2 x hx)⟩

theorem frame_alloc {base : Nat} {h : Heap} (hl : base ≤ h.length) (o : JSObj) :
    HeapFrame base h (h ++ [o]) := by
  refine ⟨by simp; omega, fun a ha => ?_⟩
  exact List.getElem?_append_left (by omega)

theorem frame_set {base : Nat} {h : Heap} (hl : base ≤ h.length) {a : Nat}
    (ha : base ≤ a) (o : JSObj) : HeapFrame base h (h.set a o) := by
  refine ⟨by simp; omega, fun x hx => ?_⟩
  exact List.getElem?_set_ne (by omega)

theorem unvisitList_frame {base : Nat} {u : UnvisitFn} (hu : UFrame base u)
    (schema : SchemaExpr) :
    ∀ (l : List JSVal) (st : DState) (rs : List JSVal) (st' : DState),
      unvisitList u schema l st = .ok (rs, st') → base ≤ st.heap.length →
      HeapFrame base st.heap st'.heap := by
  intro l
  induction l with
  | nil =>
    intro st rs st' h hb
    unfold unvisitList at h
    cases h
    exact frame_refl hb
  | cons v rest ih =>
    intro st rs st' h hb
    unfold unvisitList at h
    rcases bindOkInv h with ⟨⟨r0, st0⟩, h1, h⟩
    try simp only [] at h
    rcases bindOkInv h with ⟨⟨rs1, st1⟩, h2, h⟩
    try simp only [] at h
    cases h
    have f1 := hu _ _ _ _ _ h1 hb
    exact frame_trans f1 (ih _ _ _ h2 f1.1)

theorem immSet_frame {base : Nat} {h : Heap} (hb : base ≤ h.length)
    (v : JSVal) (k : String) (w : JSVal) :
    HeapFrame base h (immSet h v k w).1 := by
  unfold immSet
  simp only [heapAlloc]
  repeat' split
  all_goals first
    | exact frame_alloc hb _
    | exact frame_refl hb

theorem immDenormFields_frame {base : Nat} {u : UnvisitFn} (hu : UFrame base u) :
    ∀ (l : List (String × SchemaExpr)) (obj : JSVal) (st : DState)
      (r : JSVal) (st' : DState),
      immDenormalizeFields u l obj st = .ok (r, st') → base ≤ st.heap.length →
      HeapFrame base st.heap st'.heap := by
  intro l
  induction l with
  | nil =>
    intro obj st r st' h hb
    unfold immDenormalizeFields at h
    cases h
    exact frame_refl hb
  | cons kv rest ih =>
    obtain ⟨k, s⟩ := kv
    intro obj st r st' h hb
    unfold immDenormalizeFields at h
    split at h
    · rcases bindOkInv h with ⟨⟨r0, st0⟩, h1, h⟩
      try simp only [] at h
      have f1 := hu _ _ _ _ _ h1 hb
      have f2 := @immSet_frame _ st0.heap f1.1 obj k r0
      have f3 := ih _ _ _ _ h f2.1
      exact frame_trans f1 (frame_trans f2 f3)
    · exact ih _ _ _ _ h hb

theorem entityDenormFields_frame {base : Nat} {u : UnvisitFn} (hu : UFrame base u)
    {addr : Nat} (haddr : base ≤ addr) :
    ∀ (l : List (String × SchemaExpr)) (st : DState) (st' : DState),
      entityDenormFields u addr l st = .ok st' → base ≤ st.heap.length →
      HeapFrame base st.heap st'.heap := by
  intro l
  induction l with
  | nil =>
    intro st st' h hb
    unfold entityDenormFields at h
    cases h
    exact frame_refl hb
  | cons kv rest ih =>
    obtain ⟨k, s⟩ := kv
    intro st st' h hb
    unfold entityDenormFields at h
    split at h
    · split at h
      · rcases bindOkInv h with ⟨⟨r0, st0⟩, h1, h⟩
        try simp only [] at h
        have f1 := hu _ _ _ _ _ h1 hb
        split at h
        · exact frame_trans f1 (frame_trans (frame_set f1.1 haddr _)
            (ih _ _ h (frame_set f1.1 haddr _).1))
        · exact frame_trans f1 (ih _ _ h f1.1)
      · exact ih _ _ h hb
    · exact ih _ _ h hb

theorem entityDenormalize_frame {base : Nat} {u : UnvisitFn} (hu : UFrame base u)
    (ed : EntityDef) (entityVal : JSVal) (st : DState) (r : JSVal) (st' : DState)
    (hv : ∀ a, entityVal = .ref a → isImmAt st.heap entityVal = false → base ≤ a)
    (h : entityDenormalize ed entityVal u st = .ok (r, st'))
    (hb : base ≤ st.heap.length) : HeapFrame base st.heap st'.heap := by
  unfold entityDenormalize at h
  split at h
  · exact immDenormFields_frame hu _ _ _ _ _ h hb
  · split at h
    · rename_i a hximm
      rcases bindOkInv h with ⟨st0, h1, h⟩
      try simp only [] at h
      cases h
      have haddr : base ≤ a := hv a rfl (by simpa using hximm)
      exact entityDenormFields_frame hu haddr _ _ _ h1 hb
    · cases h
      exact frame_refl hb

theorem unvisitEntityBuild_frame {base : Nat} {u : UnvisitFn} (hu : UFrame base u)
    (ed : EntityDef) (idKey cacheKey : String) (entity : JSVal) (st : DState)
    (r : JSVal) (st' : DState)
    (h : unvisitEntityBuild ed idKey cacheKey entity u st = .ok (r, st'))
    (hb : base ≤ st.heap.length) : HeapFrame base st.heap st'.heap := by
  by_cases hImm : isImmAt st.heap entity
  · unfold unvisitEntityBuild at h
    simp only [heapAlloc, hImm, reduceIte] at h
    split at h
    · cases h
    · rename_i r0 st4 heq
      cases h
      have hv : ∀ a, entity = JSVal.ref a →
          isImmAt st.heap entity = false → base ≤ a := by
        intro a ha hf
        simp [hImm] at hf
      exact entityDenormalize_frame hu ed entity
        ⟨st.heap, cachePut st.cache ed.key idKey entity, st.inProg ++ [cacheKey]⟩
        r0 st4 hv heq hb
  · simp only [Bool.not_eq_true] at hImm
    unfold unvisitEntityBuild at h
    simp only [heapAlloc, hImm, Bool.false_eq_true, if_false, reduceIte] at h
    split at h
    · cases h
    · rename_i r0 st4 heq
      cases h
      have f1 : HeapFrame base st.heap (st.heap ++ [JSObj.obj (spreadFieldsOf st.heap entity)]) :=
        frame_alloc hb _
      have hv : ∀ a, (JSVal.ref st.heap.length) = JSVal.ref a →
          isImmAt (st.heap ++ [JSObj.obj (spreadFieldsOf st.heap entity)])
            (JSVal.ref st.heap.length) = false → base ≤ a := by
        intro a ha _
        cases ha
        exact hb
      exact frame_trans f1 (entityDenormalize_frame hu ed (JSVal.ref st.heap.length)
        ⟨st.heap ++ [JSObj.obj (spreadFieldsOf st.heap entity)],
          cachePut st.cache ed.key idKey (JSVal.ref st.heap.length),
          st.inProg ++ [cacheKey]⟩
        r0 st4 hv heq f1.1)

theorem resolveEntityRecord_frame {base : Nat} (ed : EntityDef) (id : JSVal)
    (entities : EntitiesStore) (st : DState) (hb : base ≤ st.heap.length) :
    HeapFrame base st.heap (resolveEntityRecord ed id entities st).2.heap := by
  unfold resolveEntityRecord
  simp only [heapAlloc]
  repeat' split
  all_goals first
    | exact frame_alloc hb _
    | exact frame_refl hb

theorem unvisitEntity_frame {base : Nat} {u : UnvisitFn} (hu : UFrame base u)
    (ed : EntityDef) (id : JSVal) (entities : EntitiesStore) (st : DState)
    (r : JSVal) (st' : DState)
    (h : unvisitEntity ed id u entities st = .ok (r, st'))
    (hb : base ≤ st.heap.length) : HeapFrame base st.heap st'.heap := by
  have f0 := @resolveEntityRecord_frame base ed id entities st hb
  unfold unvisitEntity at h
  rcases hre : resolveEntityRecord ed id entities st with ⟨entity, st0⟩
  rw [hre] at h f0
  try simp only [] at h f0
  repeat' split at h
  all_goals first
    | (cases h <;> exact f0)
    | exact frame_trans f0 (unvisitEntityBuild_frame hu _ _ _ _ st0 _ _ h f0.1)
    | exact frame_trans f0 (unvisitEntityBuild_frame hu _ _ _ _
        ⟨st0.heap, setA st0.cache ed.key [], st0.inProg⟩ _ _ h f0.1)

theorem objectDenormFields_frame {base : Nat} {u : UnvisitFn} (hu : UFrame base u) :
    ∀ (l : List (String × SchemaExpr)) (acc : List (String × JSVal)) (st : DState)
      (fs : List (String × JSVal)) (st' : DState),
      objectDenormFields u l acc st = .ok (fs, st') → base ≤ st.heap.length →
      HeapFrame base st.heap st'.heap := by
  intro l
  induction l with
  | nil =>
    intro acc st fs st' h hb
    unfold objectDenormFields at h
    cases h
    exact frame_refl hb
  | cons kv rest ih =>
    obtain ⟨k, s⟩ := kv
    intro acc st fs st' h hb
    unfold objectDenormFields at h
    split at h
    · rcases bindOkInv h with ⟨⟨r0, st0⟩, h1, h⟩
      try simp only [] at h
      have f1 := hu _ _ _ _ _ h1 hb
      exact frame_trans f1 (ih _ _ _ _ h f1.1)
    · exact ih _ _ _ _ h hb

theorem objectDenormalize_frame {base : Nat} {u : UnvisitFn} (hu : UFrame base u)
    (fields : List (String × SchemaExpr)) (input : JSVal) (st : DState)
    (r : JSVal) (st' : DState)
    (h : objectDenormalize fields input u st = .ok (r, st'))
    (hb : base ≤ st.heap.length) : HeapFrame base st.heap st'.heap := by
  unfold objectDenormalize at h
  split at h
  · exact immDenormFields_frame hu _ _ _ _ _ h hb
  · rcases bindOkInv h with ⟨⟨fs, st0⟩, h1, h⟩
    try simp only [heapAlloc] at h
    cases h
    have f1 := objectDenormFields_frame hu _ _ _ _ _ h1 hb
    exact frame_trans f1 (frame_alloc f1.1 _)

theorem arrayShorthandDenormalize_frame {base : Nat} {u : UnvisitFn} (hu : UFrame base u)
    (elem : SchemaExpr) (input : JSVal) (st : DState) (r : JSVal) (st' : DState)
    (h : arrayShorthandDenormalize elem input u st = .ok (r, st'))
    (hb : base ≤ st.heap.length) : HeapFrame base st.heap st'.heap := by
  unfold arrayShorthandDenormalize at h
  repeat' split at h
  all_goals try (cases h; exact frame_refl hb)
  rcases bindOkInv (by assumption) with ⟨⟨rs, st0⟩, h1, h2⟩
  try simp only [heapAlloc] at h2
  cases h2
  have f1 := unvisitList_frame hu _ _ _ _ _ h1 hb
  exact frame_trans f1 (frame_alloc f1.1 _)

theorem polyDenormalizeValue_frame {base : Nat} {u : UnvisitFn} (hu : UFrame base u)
    (d : PolyDef) (value : JSVal) (st : DState) (r : JSVal) (st' : DState)
    (h : polyDenormalizeValue d value u st = .ok (r, st'))
    (hb : base ≤ st.heap.length) : HeapFrame base st.heap st'.heap := by
  unfold polyDenormalizeValue at h
  try simp only [] at h
  repeat' split at h
  all_goals first
    | (cases h; exact frame_refl hb)
    | exact hu _ _ _ _ _ h hb
    | cases h

theorem polyDenormalizeList_frame {base : Nat} {u : UnvisitFn} (hu : UFrame base u)
    (d : PolyDef) :
    ∀ (l : List JSVal) (st : DState) (rs : List JSVal) (st' : DState),
      polyDenormalizeList d u l st = .ok (rs, st') → base ≤ st.heap.length →
      HeapFrame base st.heap st'.heap := by
  intro l
  induction l with
  | nil =>
    intro st rs st' h hb
    unfold polyDenormalizeList at h
    cases h
    exact frame_refl hb
  | cons v rest ih =>
    intro st rs st' h hb
    unfold polyDenormalizeList at h
    rcases bindOkInv h with ⟨⟨r0, st0⟩, h1, h⟩
    try simp only [] at h
    rcases bindOkInv h with ⟨⟨rs1, st1⟩, h2, h⟩
    try simp only [] at h
    cases h
    have f1 := polyDenormalizeValue_frame hu _ _ _ _ _ h1 hb
    exact frame_trans f1 (ih _ _ _ h2 f1.1)

theorem arraySchemaDenormalize_frame {base : Nat} {u : UnvisitFn} (hu : UFrame base u)
    (d : PolyDef) (input : JSVal) (st : DState) (r : JSVal) (st' : DState)
    (h : arraySchemaDenormalize d input u st = .ok (r, st'))
    (hb : base ≤ st.heap.length) : HeapFrame base st.heap st'.heap := by
  unfold arraySchemaDenormalize at h
  repeat' split at h
  all_goals try (cases h; exact frame_refl hb)
  rcases bindOkInv (by assumption) with ⟨⟨rs, st0⟩, h1, h2⟩
  try simp only [heapAlloc] at h2
  cases h2
  have f1 := polyDenormalizeList_frame hu _ _ _ _ _ h1 hb
  exact frame_trans f1 (frame_alloc f1.1 _)

theorem valuesDenormKeys_frame {base : Nat} {u : UnvisitFn} (hu : UFrame base u)
    (d : PolyDef) (input : JSVal) :
    ∀ (ks : List String) (acc : List (String × JSVal)) (st : DState)
      (fs : List (String × JSVal)) (st' : DState),
      valuesDenormKeys d input u ks acc st = .ok (fs, st') → base ≤ st.heap.length →
      HeapFrame base st.heap st'.heap := by
  intro ks
  induction ks with
  | nil =>
    intro acc st fs st' h hb
    unfold valuesDenormKeys at h
    cases h
    exact frame_refl hb
  | cons k rest ih =>
    intro acc st fs st' h hb
    unfold valuesDenormKeys at h
    rcases bindOkInv h with ⟨⟨r0, st0⟩, h1, h⟩
    try simp only [] at h
    have f1 := polyDenormalizeValue_frame hu _ _ _ _ _ h1 hb
    exact frame_trans f1 (ih _ _ _ _ h f1.1)

theorem valuesSchemaDenormalize_frame {base : Nat} {u : UnvisitFn} (hu : UFrame base u)
    (d : PolyDef) (input : JSVal) (st : DState) (r : JSVal) (st' : DState)
    (h : valuesSchemaDenormalize d input u st = .ok (r, st'))
    (hb : base ≤ st.heap.length) : HeapFrame base st.heap st'.heap := by
  unfold valuesSchemaDenormalize at h
  try simp only [] at h
  rcases bindOkInv h with ⟨⟨fs, st0⟩, h1, h⟩
  try simp only [heapAlloc] at h
  cases h
  have f1 := valuesDenormKeys_frame hu _ _ _ _ _ _ _ h1 hb
  exact frame_trans f1 (frame_alloc f1.1 _)

/-- The frame property of `unvisit`: a run never changes any address
that existed before the call; it only allocates and mutates fresh
cells. -/
theorem unvisit_frame :
    ∀ (fuel : Nat) (env : SchemaEnv) (entities : EntitiesStore)
      (input : JSVal) (schema : SchemaExpr) (st : DState)
      (r : JSVal) (st' : DState),
      unvisit fuel env entities input schema st = .ok (r, st') →
      ∀ base, base ≤ st.heap.length → HeapFrame base st.heap st'.heap := by
  intro fuel
  induction fuel with
  | zero =>
    intro env entities input schema st r st' h base hb
    unfold unvisit at h
    cases h
  | succ fuel ih =>
    intro env entities input schema st r st' h base hb
    have hu : UFrame base (unvisit fuel env entities) :=
      fun v s st0 r0 st0' h0 hb0 => ih env entities v s st0 r0 st0' h0 base hb0
    unfold unvisit at h
    try simp only [] at h
    split at h
    · exact arrayShorthandDenormalize_frame hu _ _ _ _ _ h hb
    · exact objectDenormalize_frame hu _ _ _ _ _ h hb
    · split at h
      · cases h; exact frame_refl hb
      · exact objectDenormalize_frame hu _ _ _ _ _ h hb
    · split at h
      · cases h; exact frame_refl hb
      · split at h
        · exact unvisitEntity_frame hu _ _ _ _ _ _ h hb
        · cases h
    · split at h
      · cases h; exact frame_refl hb
      · exact arraySchemaDenormalize_frame hu _ _ _ _ _ h hb
    · split at h
      · cases h; exact frame_refl hb
      · exact valuesSchemaDenormalize_frame hu _ _ _ _ _ h hb
    · split at h
      · cases h; exact frame_refl hb
      · exact polyDenormalizeValue_frame hu _ _ _ _ _ h hb

/-- The frame property of `denormalize` relative to the caller's
heap. -/
theorem denormalize_frame (fuel : Nat) (env : SchemaEnv) (input : JSVal)
    (schema : SchemaExpr) (entities : EntitiesStore) (h0 : Heap)
    (out : JSVal) (st' : DState)
    (h : denormalize fuel env input schema entities h0 = .ok (out, st')) :
    HeapFrame h0.length h0 st'.heap := by
  unfold denormalize at h
  split at h
  · cases h
    exact frame_refl (Nat.le_refl _)
  · exact unvisit_frame fuel env entities input schema ⟨h0, [], []⟩ out st' h
      h0.length (Nat.le_refl _)

theorem heapClosed_get {h : Heap} (hc : heapClosed h = true) {a : Nat} {o : JSObj}
    (ha : heapGet h a = some o) : objBelow h.length o = true := by
  have hm : o ∈ h := List.getElem?_mem ha
  exact List.all_eq_true.mp hc o hm

theorem readbackF_cong {rb1 rb2 : JSVal → Option PVal} {P : JSVal → Bool}
    (hcong : ∀ v, P v = true → rb1 v = rb2 v) :
    ∀ fs : List (String × JSVal), fs.all (fun kv => P kv.2) = true →
      readbackF rb1 fs = readbackF rb2 fs := by
  intro fs
  induction fs with
  | nil => intro _; rfl
  | cons kv rest ih =>
    obtain ⟨k, v⟩ := kv
    intro hall
    simp only [List.all_cons, Bool.and_eq_true] at hall
    unfold readbackF
    rw [hcong v hall.1, ih hall.2]

theorem readbackL_cong {rb1 rb2 : JSVal → Option PVal} {P : JSVal → Bool}
    (hcong : ∀ v, P v = true → rb1 v = rb2 v) :
    ∀ es : List JSVal, es.all P = true →
      readbackL rb1 es = readbackL rb2 es := by
  intro es
  induction es with
  | nil => intro _; rfl
  | cons v rest ih =>
    intro hall
    simp only [List.all_cons, Bool.and_eq_true] at hall
    unfold readbackL
    rw [hcong v hall.1, ih hall.2]

/-- Readback is unchanged by a heap extension that preserves all old
addresses, for values referencing only old addresses of a closed
heap. -/
theorem readback_frame_cong (h h' : Heap) (hc : heapClosed h = true)
    (hf : HeapFrame h.length h h') :
    ∀ (n : Nat) (v : JSVal), valBelow h.length v = true →
      readback n h' v = readback n h v := by
  intro n
  induction n with
  | zero => intro v _; rfl
  | succ n ih =>
    intro v hv
    cases v with
    | ref a =>
      have ha : a < h.length := by simpa [valBelow] using hv
      have hgg : (h' : Heap)[a]? = h[a]? := hf.2 a ha
      show (match heapGet h' a with
        | some (.obj fs) => (readbackF (readback n h') fs).map PVal.pobj
        | some (.arr es) => (readbackL (readback n h') es).map PVal.parr
        | some (.imm fs) => (readbackF (readback n h') fs).map PVal.pimm
        | none => none)
        = (match heapGet h a with
        | some (.obj fs) => (readbackF (readback n h) fs).map PVal.pobj
        | some (.arr es) => (readbackL (readback n h) es).map PVal.parr
        | some (.imm fs) => (readbackF (readback n h) fs).map PVal.pimm
        | none => none)
      rw [show heapGet h' a = heapGet h a from hgg]
      cases hg : heapGet h a with
      | none => rfl
      | some o =>
        have ho := heapClosed_get hc hg
        cases o with
        | obj fs =>
          simp only [objBelow] at ho
          simp only []
          rw [readbackF_cong ih fs ho]
        | arr es =>
          simp only [objBelow] at ho
          simp only []
          rw [readbackL_cong ih es ho]
        | imm fs =>
          simp only [objBelow] at ho
          simp only []
          rw [readbackF_cong ih fs ho]
    | undef => rfl
    | null => rfl
    | bool b => rfl
    | num m => rfl
    | str s => rfl

/-- C10: denormalize never mutates pre-existing heap cells — in
particular the entities store: every address of the caller's heap is
unchanged after a successful call, and consequently (for a closed
heap) the readback of every store record, indeed of every value that
existed before the call, is exactly what it was. -/
theorem denormalize_preserves_store :
    (∀ (fuel : Nat) (env : SchemaEnv) (input : JSVal) (schema : SchemaExpr)
        (entities : EntitiesStore) (h0 : Heap) (out : JSVal) (st' : DState),
        denormalize fuel env input schema entities h0 = .ok (out, st') →
        h0.length ≤ st'.heap.length ∧ ∀ a, a < h0.length → st'.heap[a]? = h0[a]?)
    ∧ ∀ (fuel : Nat) (env : SchemaEnv) (input : JSVal) (schema : SchemaExpr)
        (entities : EntitiesStore) (h0 : Heap) (out : JSVal) (st' : DState)
        (n : Nat) (v : JSVal),
        denormalize fuel env input schema entities h0 = .ok (out, st') →
        heapClosed h0 = true → valBelow h0.length v = true →
        readback n st'.heap v = readback n h0 v := by
  constructor
  · intro fuel env input schema entities h0 out st' h
    exact denormalize_frame fuel env input schema entities h0 out st' h
  · intro fuel env input schema entities h0 out st' n v h hc hv
    exact readback_frame_cong h0 st'.heap hc
      (denormalize_frame fuel env input schema entities h0 out st' h) n v hv

/-- Witness for C10 at the concrete cyclic store: the stored record
reads back unchanged after denormalization. -/
theorem denormalize_preserves_store_witness :
    ∃ out st', denormalize 20 usersEnv (.num 1) (.entity 0) cyclicStore cyclicStoreHeap
        = .ok (out, st')
      ∧ readback 3 st'.heap (.ref 0) = readback 3 cyclicStoreHeap (.ref 0) :=
  ⟨_, _, rfl,
    denormalize_preserves_store.2 20 usersEnv (.num 1) (.entity 0) cyclicStore
      cyclicStoreHeap _ _ 3 (.ref 0) rfl (by decide) (by decide)⟩

/-! ## Dictionary bridges and token-set lemmas (round-trip support) -/

theorem DExtX_mono {h0 : Heap} {X X' : List Nat} {h h' : Heap}
    (hx : ∀ p ∈ X, p ∈ X') (hd : DExtX h0 X h h') : DExtX h0 X' h h' :=
  ⟨hd.1, hd.2.1, fun p hp hpx => hd.2.2 p hp (fun hc => hpx (hx p hc))⟩

theorem DExtX_get {h0 : Heap} {X : List Nat} {h h' : Heap}
    (hd : DExtX h0 X h h') {p : Nat} (hpx : p ∉ X) (hl : p < h.length) :
    heapGet h' p = heapGet h p := hd.2.2 p hl hpx

theorem heapGet_heapSet_ne {h : Heap} {a p : Nat} (hne : p ≠ a) (o : JSObj) :
    heapGet (heapSet h a o) p = heapGet h p := by
  unfold heapGet heapSet
  exact List.getElem?_set_ne (fun he => hne he.symm)

